import Mathlib

/-!
Verification development for the mini-schema compiler of the `egemini`
repository.  The compiler appears twice in the source, in
`src/test_respsml.py` and in `src/q_a_with_grounding.py`; the two copies are
identical except for one step of `parse_properties` (the test copy strips one
layer of surrounding quotes from a property key, the grounding copy does not),
so the parsing nest below is parameterised by a Boolean
`strip_key_quotes` selecting the copy.

Python strings are modelled as Lean `String`s; the handful of `str` methods
the source uses (`strip`, `lstrip`, `rstrip`, `split(":", 1)`, `startswith`,
`endswith`, slicing, `splitlines`, `join`) are modelled by the `py*` helpers
in this section, each faithful to CPython's behaviour on the character sets
exercised by the program (ASCII plus the common whitespace / line-terminator
code points; the rarely used Unicode-only whitespace code points above U+00A0
are not enumerated).
-/

/-- Whitespace for Python's default `str.strip()` / `str.lstrip()` /
`str.rstrip()` (ASCII whitespace plus NEL and NBSP; the higher Unicode
space code points never occur in the inputs considered here). -/
def pyIsSpace (c : Char) : Bool :=
  c == ' ' || c == '\t' || c == '\n' || c == '\x0d' ||
  c == '\x0b' || c == '\x0c' ||
  c == '\x1c' || c == '\x1d' || c == '\x1e' || c == '\x1f' ||
  c == '\x85' || c == '\xa0'

/-- `s.lstrip(" ")`: remove leading space characters (spaces only). -/
def lstripSpaces (s : String) : String :=
  String.mk (s.data.dropWhile (fun c => c == ' '))

/-- `s.lstrip()`: remove leading whitespace. -/
def pyLstrip (s : String) : String :=
  String.mk (s.data.dropWhile pyIsSpace)

/-- `s.rstrip()`: remove trailing whitespace. -/
def pyRstrip (s : String) : String :=
  String.mk ((s.data.reverse.dropWhile pyIsSpace).reverse)

/-- `s.strip()`: remove leading and trailing whitespace. -/
def pyStrip (s : String) : String :=
  pyRstrip (pyLstrip s)

/-- `s.rstrip("\n")`: remove trailing newline characters only. -/
def rstripNewlines (s : String) : String :=
  String.mk ((s.data.reverse.dropWhile (fun c => c == '\n')).reverse)

/-- The leading-space count of a line, computed exactly as the source does:
`len(line) - len(line.lstrip(" "))`. -/
def indentOf (line : String) : Nat :=
  line.length - (lstripSpaces line).length

/-- `s.startswith(q)` for a single-character `q`. -/
def startsQ (s : String) (q : Char) : Bool :=
  match s.data with
  | [] => false
  | c :: _ => c == q

/-- `s.endswith(q)` for a single-character `q`. -/
def endsQ (s : String) (q : Char) : Bool :=
  match s.data.getLast? with
  | none => false
  | some c => c == q

/-- `line.lstrip(" ").startswith("-")`: the bullet test used by
`parse_properties`. -/
def isBulletS (line : String) : Bool :=
  startsQ (lstripSpaces line) '-'

/-- `line.lstrip().startswith("-")`: the bullet test used by
`parse_array_block` and by the child-block inspection in
`parse_properties`. -/
def isBulletW (line : String) : Bool :=
  startsQ (pyLstrip line) '-'

/-- `":" in s`. -/
def hasColon (s : String) : Bool :=
  s.data.contains ':'

/-- Character-list core of `s.split(":", 1)`: the part before the first
colon and the part after it. -/
def splitColonChars : List Char → List Char × List Char
  | [] => ([], [])
  | c :: rest =>
    if c == ':' then ([], rest)
    else
      let p := splitColonChars rest
      (c :: p.1, p.2)

/-- `s.split(":", 1)` under the guard that `s` contains a colon
(the source only splits after checking `":" in s`). -/
def splitFirstColon (s : String) : String × String :=
  let p := splitColonChars s.data
  (String.mk p.1, String.mk p.2)

/-- Python slice `s[1:-1]` (empty for strings of length at most one). -/
def pyInterior (s : String) : String :=
  String.mk ((s.data.drop 1).dropLast)

/-- The quote-stripping step the source applies to property keys and to
tokens of `custom_parse_list`: if the string starts and ends with `"` (or
starts and ends with `'`) drop the first and last character.  As in the
source, a one-character quote string satisfies both `startswith` and
`endswith` and is stripped to the empty string. -/
def pyUnquote (s : String) : String :=
  if (startsQ s '"' && endsQ s '"') || (startsQ s '\'' && endsQ s '\'') then
    pyInterior s
  else s

/-- `" " * n`. -/
def spacesStr (n : Nat) : String :=
  String.mk (List.replicate n ' ')

/-- Line-terminator characters of Python `str.splitlines` (besides the
`\r\n` pair, which is handled in `breakLine`).  The two Unicode separators
U+2028 and U+2029 are included; they never occur in the inputs considered
here. -/
def isLineTerm (c : Char) : Bool :=
  c == '\n' || c == '\x0d' || c == '\x0b' || c == '\x0c' ||
  c == '\x1c' || c == '\x1d' || c == '\x1e' || c == '\x85' ||
  c == Char.ofNat 0x2028 || c == Char.ofNat 0x2029

/-- Split off the first line of a character list: returns the line, the
remaining characters, and whether a terminator was consumed.  `\r\n`
counts as a single terminator, as in Python. -/
def breakLine : List Char → List Char × List Char × Bool
  | [] => ([], [], false)
  | c :: rest =>
    if c == '\x0d' then
      ([], (match rest with
            | '\n' :: r => r
            | r => r), true)
    else if isLineTerm c then ([], rest, true)
    else
      let p := breakLine rest
      (c :: p.1, p.2.1, p.2.2)

theorem skipCrLf_length_le (rest : List Char) :
    (match rest with
     | '\n' :: r => r
     | r => r).length ≤ rest.length := by
  split
  · simp only [List.length_cons]; omega
  · exact le_refl _

theorem breakLine_rest_length : ∀ l : List Char, l ≠ [] →
    (breakLine l).2.1.length < l.length := by
  intro l hl
  induction l with
  | nil => exact absurd rfl hl
  | cons c rest ih =>
    simp only [breakLine]
    by_cases h1 : (c == '\x0d') = true
    · simp only [h1, if_true]
      have := skipCrLf_length_le rest
      simp only [List.length_cons]
      omega
    · simp only [h1, if_false, Bool.false_eq_true]
      by_cases h2 : isLineTerm c = true
      · simp [h2]
      · simp only [h2, if_false, Bool.false_eq_true]
        cases hrest : rest with
        | nil => simp [hrest, breakLine]
        | cons c' r =>
          have := ih (by simp [hrest])
          rw [hrest] at this
          simp only [List.length_cons] at this ⊢
          omega

/-- Core of Python `str.splitlines` on a character list.  The fuel is a
structural-recursion device only: by `breakLine_rest_length` each
iteration strictly shrinks the input, so the wrapper's `l.length` fuel is
never exhausted. -/
def pySplitlinesAux : Nat → List Char → List (List Char)
  | 0, _ => []
  | fuel+1, l =>
    match l with
    | [] => []
    | c :: rest =>
      let p := breakLine (c :: rest)
      p.1 :: pySplitlinesAux fuel p.2.1

def pySplitlinesL (l : List Char) : List (List Char) :=
  pySplitlinesAux l.length l

/-- Python `text.splitlines()`. -/
def pySplitlines (text : String) : List String :=
  (pySplitlinesL text.data).map String.mk

/-!
## JSON values and a model of `json.loads`

`parse_properties` first attempts `json.loads(remainder)` on a bracketed
remainder and falls back to `custom_parse_list` on `json.JSONDecodeError`.
`json.loads` is modelled by `json_loads` below: a recursive-descent parser
mirroring CPython's `json.decoder` / `json.scanner` (strict mode, with the
non-standard `NaN` / `Infinity` / `-Infinity` constants CPython accepts).
Numbers are kept as their source lexeme (`jNum`): no theorem below compares
two distinct numeric lexemes, so their numeric value is irrelevant.
-/

inductive JVal where
  | jStr (s : String)
  | jNum (lex : String)
  | jBool (b : Bool)
  | jNull
  | jArr (elems : List JVal)
  | jObj (fields : List (String × JVal))

/-- Whether a parsed value is a (Python) string. -/
def JVal.isStr : JVal → Bool
  | JVal.jStr _ => true
  | _ => false

/-- Python-dict insertion: overwrite in place if the key exists (keeping its
position), otherwise append.  This is exactly `d[k] = v` on a `dict`. -/
def dictInsert {α : Type} (d : List (String × α)) (k : String) (v : α) :
    List (String × α) :=
  if d.any (fun p => p.1 == k) then
    d.map (fun p => if p.1 == k then (k, v) else p)
  else d ++ [(k, v)]

/-- Python `d.update(src)` / `dict(src)`: insert the pairs of `src` in
order. -/
def dictUpdate {α : Type} (d src : List (String × α)) : List (String × α) :=
  src.foldl (fun acc p => dictInsert acc p.1 p.2) d

/-- Lookup in a Python-dict model. -/
def dictLookup {α : Type} (d : List (String × α)) (k : String) : Option α :=
  match d.find? (fun p => p.1 == k) with
  | some p => some p.2
  | none => none

/-- Whitespace skipped by `json.decoder` (space, tab, newline, carriage
return only). -/
def jsonWs (c : Char) : Bool :=
  c == ' ' || c == '\t' || c == '\n' || c == '\x0d'

def skipWs (l : List Char) : List Char :=
  l.dropWhile jsonWs

/-- Head-character test, the model of the scanner's `nextchar == c`. -/
def headIs (l : List Char) (c : Char) : Bool :=
  match l with
  | [] => false
  | x :: _ => x == c

/-- Match a literal character sequence, returning the rest of the input. -/
def matchLit : List Char → List Char → Option (List Char)
  | [], l => some l
  | _ :: _, [] => none
  | c :: cs, x :: xs => if x == c then matchLit cs xs else none

def hexVal (c : Char) : Option Nat :=
  if '0' ≤ c ∧ c ≤ '9' then some (c.toNat - '0'.toNat)
  else if 'a' ≤ c ∧ c ≤ 'f' then some (c.toNat - 'a'.toNat + 10)
  else if 'A' ≤ c ∧ c ≤ 'F' then some (c.toNat - 'A'.toNat + 10)
  else none

/-- Read a `\uXXXX` escape holding a low surrogate (U+DC00–U+DFFF) from the
head of the input, used for CPython's surrogate pairing. -/
def lowSurrogate (l : List Char) : Option Nat :=
  match l with
  | '\\' :: 'u' :: k1 :: k2 :: k3 :: k4 :: _ =>
    match hexVal k1, hexVal k2, hexVal k3, hexVal k4 with
    | some a2, some b2, some c2, some d2 =>
      let code2 := ((a2 * 16 + b2) * 16 + c2) * 16 + d2
      if 0xdc00 ≤ code2 ∧ code2 ≤ 0xdfff then some code2 else none
    | _, _, _, _ => none
  | _ => none

/-- JSON string body parser (the opening quote already consumed), strict
mode: control characters below U+0020 are rejected, the eight standard
escapes and `\uXXXX` (with surrogate pairing) are decoded.  CPython keeps a
lone surrogate as a surrogate code unit in the resulting `str`; Lean's
`Char` cannot hold one, so `Char.ofNat` maps it to `'\0'` — no input in
this development contains a lone surrogate. -/
def parseJStringAuxF : Nat → List Char → List Char → Option (String × List Char)
  | 0, _, _ => none
  | fuel+1, l, acc =>
    match l with
    | [] => none
    | c :: rest =>
      if c == '"' then some (String.mk acc.reverse, rest)
      else if c == '\\' then
        match rest with
        | [] => none
        | e :: rest2 =>
          if e == '"' then parseJStringAuxF fuel rest2 ('"' :: acc)
          else if e == '\\' then parseJStringAuxF fuel rest2 ('\\' :: acc)
          else if e == '/' then parseJStringAuxF fuel rest2 ('/' :: acc)
          else if e == 'b' then parseJStringAuxF fuel rest2 ('\x08' :: acc)
          else if e == 'f' then parseJStringAuxF fuel rest2 ('\x0c' :: acc)
          else if e == 'n' then parseJStringAuxF fuel rest2 ('\n' :: acc)
          else if e == 'r' then parseJStringAuxF fuel rest2 ('\x0d' :: acc)
          else if e == 't' then parseJStringAuxF fuel rest2 ('\t' :: acc)
          else if e == 'u' then
            match rest2 with
            | h1 :: h2 :: h3 :: h4 :: rest3 =>
              match hexVal h1, hexVal h2, hexVal h3, hexVal h4 with
              | some a, some b, some c1, some d =>
                let code := ((a * 16 + b) * 16 + c1) * 16 + d
                if 0xd800 ≤ code ∧ code ≤ 0xdbff then
                  match lowSurrogate rest3 with
                  | some code2 =>
                    parseJStringAuxF fuel (rest3.drop 6)
                      (Char.ofNat
                        (0x10000 + (code - 0xd800) * 0x400 +
                          (code2 - 0xdc00)) :: acc)
                  | none => parseJStringAuxF fuel rest3 (Char.ofNat code :: acc)
                else parseJStringAuxF fuel rest3 (Char.ofNat code :: acc)
              | _, _, _, _ => none
            | _ => none
          else none
      else if c.toNat < 32 then none
      else parseJStringAuxF fuel rest (c :: acc)

/-- Wrapper supplying the exact fuel: every recursive step of the scan
consumes at least one input character, so `l.length` steps suffice and
the fuel is a structural-recursion device only. -/
def parseJStringAux (l : List Char) (acc : List Char) :
    Option (String × List Char) :=
  parseJStringAuxF l.length l acc

def spanDigits (l : List Char) : List Char × List Char :=
  (l.takeWhile Char.isDigit, l.dropWhile Char.isDigit)

/-- Integer part of CPython's `NUMBER_RE`: `0` or `[1-9][0-9]*`. -/
def parseIntPart : List Char → Option (List Char × List Char)
  | [] => none
  | c :: r =>
    if c == '0' then some (['0'], r)
    else if c.isDigit then
      let p := spanDigits r
      some (c :: p.1, p.2)
    else none

/-- Optional fraction part `(\.[0-9]+)?`: consumed only when a digit follows
the dot, otherwise nothing is consumed. -/
def parseFracPart (l : List Char) : List Char × List Char :=
  if headIs l '.' then
    let p := spanDigits (l.drop 1)
    if p.1.isEmpty then ([], l) else ('.' :: p.1, p.2)
  else ([], l)

/-- Optional exponent part `([eE][-+]?[0-9]+)?`. -/
def parseExpPart (l : List Char) : List Char × List Char :=
  if headIs l 'e' || headIs l 'E' then
    let sp : List Char × List Char :=
      if headIs (l.drop 1) '+' || headIs (l.drop 1) '-' then
        (l.drop 1 |>.take 1, l.drop 2)
      else ([], l.drop 1)
    let p := spanDigits sp.2
    if p.1.isEmpty then ([], l) else (l.take 1 ++ sp.1 ++ p.1, p.2)
  else ([], l)

/-- CPython's JSON number regex, returning the matched lexeme. -/
def parseNumber (l : List Char) : Option (String × List Char) :=
  let np : List Char × List Char :=
    if headIs l '-' then (['-'], l.drop 1) else ([], l)
  match parseIntPart np.2 with
  | none => none
  | some (ip, r1) =>
    let fp := parseFracPart r1
    let ep := parseExpPart fp.2
    some (String.mk (np.1 ++ ip ++ fp.1 ++ ep.1), ep.2)

mutual

/-- Value scanner of `json.scanner` (pure-Python version, strict mode).
Fuel decreases on every recursive call; `json_loads` supplies
`2 * length + 2`, which is sufficient because every two calls consume at
least one input character. -/
def parseJValue : Nat → List Char → Option (JVal × List Char)
  | 0, _ => none
  | fuel+1, l =>
    if headIs l '"' then
      (parseJStringAux (l.drop 1) []).map (fun p => (JVal.jStr p.1, p.2))
    else if headIs l '[' then
      let r1 := skipWs (l.drop 1)
      if headIs r1 ']' then some (JVal.jArr [], r1.drop 1)
      else (parseJElems fuel r1).map (fun p => (JVal.jArr p.1, p.2))
    else if headIs l '{' then
      let r1 := skipWs (l.drop 1)
      if headIs r1 '}' then some (JVal.jObj [], r1.drop 1)
      else
        (parseJMembers fuel r1).map
          (fun p => (JVal.jObj (dictUpdate [] p.1), p.2))
    else
      match matchLit ['n', 'u', 'l', 'l'] l with
      | some rest => some (JVal.jNull, rest)
      | none =>
      match matchLit ['t', 'r', 'u', 'e'] l with
      | some rest => some (JVal.jBool true, rest)
      | none =>
      match matchLit ['f', 'a', 'l', 's', 'e'] l with
      | some rest => some (JVal.jBool false, rest)
      | none =>
      match parseNumber l with
      | some (lex, rest) => some (JVal.jNum lex, rest)
      | none =>
      match matchLit ['N', 'a', 'N'] l with
      | some rest => some (JVal.jNum "NaN", rest)
      | none =>
      match matchLit ['I', 'n', 'f', 'i', 'n', 'i', 't', 'y'] l with
      | some rest => some (JVal.jNum "Infinity", rest)
      | none =>
      match matchLit ['-', 'I', 'n', 'f', 'i', 'n', 'i', 't', 'y'] l with
      | some rest => some (JVal.jNum "-Infinity", rest)
      | none => none

/-- Non-empty element list of a JSON array (`JSONArray` loop). -/
def parseJElems : Nat → List Char → Option (List JVal × List Char)
  | 0, _ => none
  | fuel+1, l =>
    match parseJValue fuel l with
    | none => none
    | some (v, rest) =>
      let r1 := skipWs rest
      if headIs r1 ']' then some ([v], r1.drop 1)
      else if headIs r1 ',' then
        (parseJElems fuel (skipWs (r1.drop 1))).map (fun p => (v :: p.1, p.2))
      else none

/-- Non-empty member list of a JSON object (`JSONObject` loop); keys must be
strings, as in strict CPython. -/
def parseJMembers : Nat → List Char → Option (List (String × JVal) × List Char)
  | 0, _ => none
  | fuel+1, l =>
    if headIs l '"' then
      match parseJStringAux (l.drop 1) [] with
      | none => none
      | some (k, r1) =>
        if headIs (skipWs r1) ':' then
          match parseJValue fuel (skipWs ((skipWs r1).drop 1)) with
          | none => none
          | some (v, r3) =>
            let r4 := skipWs r3
            if headIs r4 '}' then some ([(k, v)], r4.drop 1)
            else if headIs r4 ',' then
              (parseJMembers fuel (skipWs (r4.drop 1))).map
                (fun p => ((k, v) :: p.1, p.2))
            else none
        else none
    else none
termination_by structural fuel => fuel

end

/-- `json.loads(s)`: skip leading whitespace, parse one value, require only
whitespace to remain. -/
def json_loads (s : String) : Option JVal :=
  let l := skipWs s.data
  match parseJValue (2 * l.length + 2) l with
  | some (v, rest) => if (skipWs rest).isEmpty then some v else none
  | none => none

/-- `json.loads` restricted to list results.  `parse_properties` only calls
it on a remainder that starts with `[`, for which a successful parse is
necessarily a list, so mapping the impossible non-list success to `none`
(the fallback path) changes nothing. -/
def json_loads_list (s : String) : Option (List JVal) :=
  match json_loads s with
  | some (JVal.jArr l) => some l
  | _ => none

/-!
## `custom_parse_list`
-/

/-- The character loop of `custom_parse_list`: state is the remaining input,
`in_quote`, `quote_char`, `escape`, `current_token` and the accumulated
token list.  The source initialises `quote_char` to the empty string; it is
only ever read after being set to a quote character, so a `Char` (with any
initial value) models it faithfully. -/
def cplLoop : List Char → Bool → Char → Bool → String → List String →
    List String
  | [], _, _, _, cur, toks => if cur ≠ "" then toks ++ [pyStrip cur] else toks
  | c :: rest, inQ, qc, esc, cur, toks =>
    if esc then cplLoop rest inQ qc false (cur.push c) toks
    else if c == '\\' then cplLoop rest inQ qc true cur toks
    else if inQ then cplLoop rest (c != qc) qc false (cur.push c) toks
    else if c == '"' || c == '\'' then cplLoop rest true c false (cur.push c) toks
    else if c == ',' then cplLoop rest false qc false "" (toks ++ [pyStrip cur])
    else cplLoop rest false qc false (cur.push c) toks

/-- `custom_parse_list` from the source: split the bracket interior on
top-level commas, trim each token and strip one layer of matching quotes. -/
def custom_parse_list (text : String) : List String :=
  let inner := pyStrip (pyInterior text)
  if inner = "" then []
  else (cplLoop inner.data false ' ' false "" []).map pyUnquote

/-!
## Schema nodes and the parsing nest

`SchemaNode` is the tagged value built by the parsers:
`strLeaf`, `strDesc d` and `strEnum vs` are the string-typed dictionaries
(with no extra field, a description, or an enum respectively), `objNode ps`
is an object dictionary with a `properties` mapping, `arrNode n` an array
dictionary with an `items` schema.  A `BulletItem` is what
`parse_bullet_item` returns: a plain Python string or an object schema.
-/

inductive SchemaNode where
  | strLeaf
  | strDesc (d : String)
  | strEnum (vs : List JVal)
  | objNode (props : List (String × SchemaNode))
  | arrNode (items : SchemaNode)

inductive BulletItem where
  | strItem (s : String)
  | objItem (props : List (String × SchemaNode))

def BulletItem.isObj : BulletItem → Bool
  | BulletItem.objItem _ => true
  | BulletItem.strItem _ => false

/-- `merge_object_schemas` from the source: fold `dict.update` over the
`properties` of the object items.  Every `objItem` passes the source's
`isinstance(schema, dict) and schema.get("type") == "object" and
"properties" in schema` guard, and every `strItem` fails its first
conjunct, so the guard reduces to the constructor distinction. -/
def merge_object_schemas (items : List BulletItem) : List (String × SchemaNode) :=
  items.foldl
    (fun acc it =>
      match it with
      | BulletItem.objItem p => dictUpdate acc p
      | BulletItem.strItem _ => acc)
    []

/-- The enum branch of `parse_properties`: `try: json.loads(remainder)
except JSONDecodeError: custom_parse_list(remainder)`. -/
def resolve_enum (remainder : String) : List JVal :=
  match json_loads_list remainder with
  | some l => l
  | none => (custom_parse_list remainder).map JVal.jStr

/-- A character that no stage of the enum pipeline treats specially: not a
quote, separator, escape, bracket, colon or whitespace, and not a control
character (so the strict JSON string parser accepts it). -/
def plainTokenChar (c : Char) : Bool :=
  !(c == '"') && !(c == '\'') && !(c == ',') && !(c == '\\') &&
  !(c == ':') && !(c == '[') && !(c == ']') && !(c == '{') &&
  !pyIsSpace c && !jsonWs c && decide (32 ≤ c.toNat)

/-- A plain bare word, as used for enum elements like `fine`: non-empty,
made of plain characters, not starting like a JSON number, and not having
any JSON keyword (`null`/`true`/`false`/`NaN`/`Infinity`/`-Infinity`) as a
prefix. -/
def plainWord (w : String) : Bool :=
  match w.data with
  | [] => false
  | a :: _ =>
    w.data.all plainTokenChar &&
    !(a == '-') && !a.isDigit &&
    (matchLit ['n', 'u', 'l', 'l'] w.data).isNone &&
    (matchLit ['t', 'r', 'u', 'e'] w.data).isNone &&
    (matchLit ['f', 'a', 'l', 's', 'e'] w.data).isNone &&
    (matchLit ['N', 'a', 'N'] w.data).isNone &&
    (matchLit ['I', 'n', 'f', 'i', 'n', 'i', 't', 'y'] w.data).isNone &&
    (matchLit ['-', 'I', 'n', 'f', 'i', 'n', 'i', 't', 'y'] w.data).isNone

/-- `lines[i]` guarded by the enclosing bounds check (every subscript in
the parsing nest is guarded in the source). -/
def getLine (lines : List String) (i : Nat) : String :=
  lines.getD i ""

/-- The trimmed-and-split key of a property line: `key.strip()` of the part
before the first colon of `line.lstrip(" ")`, with one layer of quotes
stripped in the `test_respsml.py` copy (`strip = true`) and kept in the
`q_a_with_grounding.py` copy (`strip = false`). -/
def keyOfLine (strip : Bool) (line : String) : String :=
  let key0 := pyStrip (splitFirstColon (lstripSpaces line)).1
  if strip then pyUnquote key0 else key0

/-- The trimmed remainder of a property line: `remainder.strip()` of the
part after the first colon of `line.lstrip(" ")`. -/
def remOfLine (line : String) : String :=
  pyStrip (splitFirstColon (lstripSpaces line)).2

/-- The continuation-collecting loop of `parse_bullet_item`: consume
following lines while their indent is strictly greater than the bullet's.
The fuel argument of the auxiliary loop is a structural-recursion device:
the wrapper passes `lines.length - j`, which cannot run out while
`j < lines.length`. -/
def collectContsAux (lines : List String) (bindent : Nat) :
    Nat → Nat → List String × Nat
  | 0, j => ([], j)
  | fuel+1, j =>
    if j < lines.length then
      let nl := getLine lines j
      if bindent < indentOf nl then
        let p := collectContsAux lines bindent fuel (j + 1)
        (nl :: p.1, p.2)
      else ([], j)
    else ([], j)

def collectConts (lines : List String) (j bindent : Nat) :
    List String × Nat :=
  collectContsAux lines bindent (lines.length - j) j

/-- The `min_indent` fold of `parse_bullet_item`, including its `None`
initial state. -/
def computeMinIndent (bl : List String) : Option Nat :=
  bl.foldl
    (fun acc li =>
      let ci := indentOf (rstripNewlines li)
      match acc with
      | none => some ci
      | some m => if ci < m then some ci else some m)
    none

/-- The `bullet_lines` list of `parse_bullet_item`: the bullet's own
content re-indented to the bullet indent (`" " * bullet_indent + content`
with `content = line.lstrip()[1:].lstrip()`), followed by the collected
continuation lines. -/
def bulletLinesOf (lines : List String) (idx bindent : Nat) : List String :=
  (spacesStr bindent ++
      pyLstrip (String.mk ((pyLstrip (getLine lines idx)).data.drop 1))) ::
    (collectConts lines (idx + 1) bindent).1

/-- The `norm_lines` list of `parse_bullet_item`: every bullet line with
the block's minimum indent sliced off (`line_item[min_indent:]`; the
`None` case of the fold cannot occur since `bullet_lines` is non-empty,
and is mapped to the identity as in the source's guard). -/
def normLinesOf (lines : List String) (idx bindent : Nat) : List String :=
  (bulletLinesOf lines idx bindent).map (fun li =>
    match computeMinIndent (bulletLinesOf lines idx bindent) with
    | some m => String.mk (li.data.drop m)
    | none => li)

mutual

/-- Fueled model of `parse_properties(lines, base_indent, line_index)` with
the accumulated `properties` dict made explicit.  `strip` selects the copy:
`true` is `test_respsml.py` (keys lose one layer of surrounding quotes),
`false` is `q_a_with_grounding.py` (keys are only trimmed).  Fuel decreases
on every call; `parser_fuel` below proves that the `rankP`-family bounds
are always sufficient, so the `getD` in the unfueled wrappers is never
taken.  In the array branch the source sets `line_index = new_index - 1`
and immediately adds `1` after recording the property; the model continues
directly at `new_index`. -/
def parsePropsF (strip : Bool) : Nat → List String → Nat → Nat →
    List (String × SchemaNode) → Option (List (String × SchemaNode) × Nat)
  | 0, _, _, _, _ => none
  | fuel+1, lines, base, i, props =>
    if i < lines.length then
      let line := getLine lines i
      if indentOf line < base then some (props, i)
      else if isBulletS line then some (props, i)
      else if !hasColon (lstripSpaces line) then
        parsePropsF strip fuel lines base (i + 1) props
      else
        let key := keyOfLine strip line
        let remainder := remOfLine line
        if startsQ remainder '[' && endsQ remainder ']' then
          parsePropsF strip fuel lines base (i + 1)
            (dictInsert props key (SchemaNode.strEnum (resolve_enum remainder)))
        else if remainder ≠ "" then
          parsePropsF strip fuel lines base (i + 1)
            (dictInsert props key (SchemaNode.strDesc remainder))
        else
          if i + 1 < lines.length then
            if isBulletW (getLine lines (i + 1)) &&
                indentOf line < indentOf (getLine lines (i + 1)) then
              match parseArrayF strip fuel lines (i + 1) with
              | none => none
              | some (defn, ni) =>
                parsePropsF strip fuel lines base ni (dictInsert props key defn)
            else
              parsePropsF strip fuel lines base (i + 1)
                (dictInsert props key SchemaNode.strLeaf)
          else
            parsePropsF strip fuel lines base (i + 1)
              (dictInsert props key SchemaNode.strLeaf)
    else some (props, i)
termination_by structural fuel => fuel

/-- Fueled model of `parse_array_block(lines, start_index, _parent_indent)`
(the third source parameter is unused and omitted). -/
def parseArrayF (strip : Bool) : Nat → List String → Nat →
    Option (SchemaNode × Nat)
  | 0, _, _ => none
  | fuel+1, lines, start =>
    if start < lines.length then
      match parseArrayLoopF strip fuel lines (indentOf (getLine lines start)) start [] with
      | none => none
      | some (items, idx) =>
        if !items.isEmpty && items.all BulletItem.isObj then
          some (SchemaNode.arrNode (SchemaNode.objNode (merge_object_schemas items)),
            idx)
        else some (SchemaNode.arrNode SchemaNode.strLeaf, idx)
    else some (SchemaNode.arrNode SchemaNode.strLeaf, start)
termination_by structural fuel => fuel

/-- The bullet-collecting `while` loop of `parse_array_block`, with the
accumulated item list explicit. -/
def parseArrayLoopF (strip : Bool) : Nat → List String → Nat → Nat →
    List BulletItem → Option (List BulletItem × Nat)
  | 0, _, _, _, _ => none
  | fuel+1, lines, bindent, idx, items =>
    if idx < lines.length then
      if indentOf (getLine lines idx) < bindent || !isBulletW (getLine lines idx) then
        some (items, idx)
      else
        match parseBulletF strip fuel lines idx bindent with
        | none => none
        | some (item, idx2) =>
          parseArrayLoopF strip fuel lines bindent idx2 (items ++ [item])
    else some (items, idx)
termination_by structural fuel => fuel

/-- Fueled model of `parse_bullet_item(lines, idx, bullet_indent)`.  The
source reads `lines[idx]` unguarded and is only called in range; out of
range the model returns `none`. -/
def parseBulletF (strip : Bool) : Nat → List String → Nat → Nat →
    Option (BulletItem × Nat)
  | 0, _, _, _ => none
  | fuel+1, lines, idx, bindent =>
    if idx < lines.length then
      if (bulletLinesOf lines idx bindent).any hasColon then
        match parsePropsF strip fuel (normLinesOf lines idx bindent) 0 0 [] with
        | none => none
        | some (props, _) =>
          some (BulletItem.objItem props, (collectConts lines (idx + 1) bindent).2)
      else
        some (BulletItem.strItem
          (String.intercalate " " ((bulletLinesOf lines idx bindent).map pyStrip)),
          (collectConts lines (idx + 1) bindent).2)
    else none
termination_by structural fuel => fuel

end

/-- Quadratic weight shared by the fuel bounds. -/
def lenWeight (len : Nat) : Nat := len * (len + 3)

/-- Fuel bound for `parsePropsF` on a list of length `len` at index `i`. -/
def rankP (len i : Nat) : Nat := 4 * (lenWeight len + (len - i)) + 3

/-- Fuel bound for `parseArrayF`. -/
def rankA (len s : Nat) : Nat := 4 * (lenWeight len + (len - s)) + 2

/-- Fuel bound for `parseArrayLoopF`. -/
def rankL (len idx : Nat) : Nat := 4 * (lenWeight len + (len - idx)) + 1

/-- Fuel bound for `parseBulletF`. -/
def rankB (len idx : Nat) : Nat := 4 * (lenWeight len + (len - idx))

/-- `parse_properties` (both copies, selected by `strip`): the fueled model
run with its sufficient fuel. -/
def parse_properties (strip : Bool) (lines : List String) (base i : Nat) :
    List (String × SchemaNode) × Nat :=
  (parsePropsF strip (rankP lines.length i) lines base i []).getD ([], i)

/-- `parse_array_block`, fueled wrapper. -/
def parse_array_block (strip : Bool) (lines : List String) (start : Nat) :
    SchemaNode × Nat :=
  (parseArrayF strip (rankA lines.length start) lines start).getD
    (SchemaNode.arrNode SchemaNode.strLeaf, start)

/-- The bullet-collecting loop of `parse_array_block`, fueled wrapper. -/
def parse_array_loop (strip : Bool) (lines : List String)
    (bindent idx : Nat) : List BulletItem × Nat :=
  (parseArrayLoopF strip (rankL lines.length idx) lines bindent idx []).getD
    ([], idx)

/-- `parse_bullet_item`, fueled wrapper. -/
def parse_bullet_item (strip : Bool) (lines : List String)
    (idx bindent : Nat) : BulletItem × Nat :=
  (parseBulletF strip (rankB lines.length idx) lines idx bindent).getD
    (BulletItem.strItem "", idx + 1)

/-- The marker-scanning loop of `extract_response_schema`: the index of the
first line whose trimmed content is `::::`. -/
def findMarkerAux (lines : List String) : Nat → Nat → Option Nat
  | 0, _ => none
  | fuel+1, i =>
    if i < lines.length then
      if pyStrip (getLine lines i) = "::::" then some i
      else findMarkerAux lines fuel (i + 1)
    else none

def findMarkerFrom (lines : List String) (i : Nat) : Option Nat :=
  findMarkerAux lines (lines.length - i) i

/-- `extract_response_schema` (both copies; the test copy additionally
prints a diagnostic to stderr before returning `None`, which has no
bearing on the returned value).  `none` models Python's `None`. -/
def extract_response_schema (strip : Bool) (text : String) :
    Option SchemaNode :=
  let lines := pySplitlines text
  match findMarkerFrom lines 0 with
  | none => none
  | some mi =>
    let schemaLines :=
      ((lines.drop (mi + 1)).filter (fun li => pyStrip li ≠ "")).map pyRstrip
    some (SchemaNode.objNode (parse_properties strip schemaLines 0 0).1)

/-!
## Termination and fuel sufficiency

`parser_fuel` below shows that for every input the fueled parsers succeed
once given the `rank*` fuel bounds, together with the index invariants
needed both by the induction itself and by the block-termination theorems.
-/

theorem rankP_pos (len i : Nat) : 1 ≤ rankP len i := by
  simp only [rankP]; omega

theorem rankA_pos (len s : Nat) : 1 ≤ rankA len s := by
  simp only [rankA]; omega

theorem rankL_pos (len idx : Nat) : 1 ≤ rankL len idx := by
  simp only [rankL]; omega

theorem rankB_pos (len idx : Nat) (h : idx < len) : 1 ≤ rankB len idx := by
  simp only [rankB]; omega

/-- The one place where the fuel measure crosses to a new line list: the
normalised block of a bullet at index `idx ≥ 1` has at most `len - idx`
lines, and its property-parse rank is strictly below the bullet's rank. -/
theorem rankP_le_rankB (len idx L' : Nat) (h1 : 1 ≤ idx) (h2 : idx < len)
    (h3 : L' ≤ len - idx) : rankP L' 0 + 1 ≤ rankB len idx := by
  obtain ⟨e, he⟩ : ∃ e, len = idx + e := ⟨len - idx, by omega⟩
  have he1 : 1 ≤ e := by omega
  have hL : L' ≤ e := by omega
  have h4 : L' * (L' + 4) ≤ e * (e + 4) := Nat.mul_le_mul hL (by omega)
  have h5 : (1 + e) * (e + 4) ≤ len * (len + 3) :=
    Nat.mul_le_mul (by omega) (by omega)
  have h6 : e * (e + 4) + (e + 4) = (1 + e) * (e + 4) := by ring
  have hkey : L' * (L' + 4) + (e + 4) ≤ len * (len + 3) := by omega
  have hW : lenWeight L' + L' = L' * (L' + 4) := by simp only [lenWeight]; ring
  have hWlen : lenWeight len = len * (len + 3) := rfl
  simp only [rankP, rankB]
  omega

theorem collectContsAux_spec (lines : List String) (bindent : Nat) :
    ∀ fuel j, lines.length - j ≤ fuel →
      (collectContsAux lines bindent fuel j).2 =
        j + (collectContsAux lines bindent fuel j).1.length ∧
      (j ≤ lines.length → (collectContsAux lines bindent fuel j).2 ≤ lines.length) := by
  intro fuel
  induction fuel with
  | zero =>
    intro j hj
    exact ⟨by simp [collectContsAux], fun h => by simpa [collectContsAux] using h⟩
  | succ fuel ih =>
    intro j hj
    by_cases hjl : j < lines.length
    · by_cases hind : bindent < indentOf (getLine lines j)
      · obtain ⟨ih1, ih2⟩ := ih (j + 1) (by omega)
        constructor
        · simp only [collectContsAux, if_pos hjl, if_pos hind, List.length_cons]
          omega
        · intro _h
          simp only [collectContsAux, if_pos hjl, if_pos hind]
          exact ih2 (by omega)
      · simp only [collectContsAux, if_pos hjl, if_neg hind]
        exact ⟨by simp, fun _h => le_of_lt hjl⟩
    · simp only [collectContsAux, if_neg hjl]
      exact ⟨by simp, fun h => by omega⟩

theorem collectConts_spec (lines : List String) (bindent : Nat) :
    ∀ j, (collectConts lines j bindent).2 = j + (collectConts lines j bindent).1.length ∧
      (j ≤ lines.length → (collectConts lines j bindent).2 ≤ lines.length) := by
  intro j
  exact collectContsAux_spec lines bindent (lines.length - j) j (le_refl _)

theorem normLinesOf_length (lines : List String) (idx bindent : Nat)
    (h1 : idx < lines.length) :
    (normLinesOf lines idx bindent).length ≤ lines.length - idx := by
  have hcc := collectConts_spec lines bindent (idx + 1)
  simp only [normLinesOf, bulletLinesOf, List.length_map, List.length_cons]
  have h2 := hcc.1
  have h3 := hcc.2 (by omega)
  omega

/-- Invariant-carrying success statement for `parsePropsF` at fuel bound
`n`: the parse succeeds at every fuel level of at least the rank with a
fuel-independent result, the returned index never goes backwards nor past
the end, and when the walk stops strictly inside the line list the
stopping line is a block terminator (a less-indented line or a bullet
line). -/
def GoodP (n : Nat) : Prop :=
  ∀ (strip : Bool) (lines : List String) (base i : Nat)
    (acc : List (String × SchemaNode)),
    rankP lines.length i ≤ n →
    ∃ pr : List (String × SchemaNode) × Nat,
      i ≤ pr.2 ∧ (i ≤ lines.length → pr.2 ≤ lines.length) ∧
      (pr.2 < lines.length →
        indentOf (getLine lines pr.2) < base ∨ isBulletS (getLine lines pr.2) = true) ∧
      ∀ f, rankP lines.length i ≤ f →
        parsePropsF strip f lines base i acc = some pr

/-- Success statement for `parseArrayF`; in the program the array parser is
only invoked at `start = line_index + 1 ≥ 1`, which the induction relies
on. -/
def GoodA (n : Nat) : Prop :=
  ∀ (strip : Bool) (lines : List String) (start : Nat), 1 ≤ start →
    rankA lines.length start ≤ n →
    ∃ ar : SchemaNode × Nat,
      start ≤ ar.2 ∧ (start ≤ lines.length → ar.2 ≤ lines.length) ∧
      ∀ f, rankA lines.length start ≤ f →
        parseArrayF strip f lines start = some ar

/-- Success statement for the bullet-collecting loop of
`parse_array_block`. -/
def GoodL (n : Nat) : Prop :=
  ∀ (strip : Bool) (lines : List String) (bindent idx : Nat)
    (items : List BulletItem), 1 ≤ idx →
    rankL lines.length idx ≤ n →
    ∃ lr : List BulletItem × Nat,
      idx ≤ lr.2 ∧ (idx ≤ lines.length → lr.2 ≤ lines.length) ∧
      ∀ f, rankL lines.length idx ≤ f →
        parseArrayLoopF strip f lines bindent idx items = some lr

/-- Success statement for `parseBulletF`: a bullet item consumes at least
its own line and never reads past the end. -/
def GoodB (n : Nat) : Prop :=
  ∀ (strip : Bool) (lines : List String) (idx bindent : Nat), 1 ≤ idx →
    idx < lines.length →
    rankB lines.length idx ≤ n →
    ∃ br : BulletItem × Nat,
      idx < br.2 ∧ br.2 ≤ lines.length ∧
      ∀ f, rankB lines.length idx ≤ f →
        parseBulletF strip f lines idx bindent = some br

theorem parser_fuel : ∀ n, GoodP n ∧ GoodA n ∧ GoodL n ∧ GoodB n := by
  intro n
  induction n with
  | zero =>
    refine ⟨?_, ?_, ?_, ?_⟩
    · intro strip lines base i acc hrank
      exact absurd hrank (by have := rankP_pos lines.length i; omega)
    · intro strip lines start h1 hrank
      exact absurd hrank (by have := rankA_pos lines.length start; omega)
    · intro strip lines bindent idx items h1 hrank
      exact absurd hrank (by have := rankL_pos lines.length idx; omega)
    · intro strip lines idx bindent h1 hidx hrank
      exact absurd hrank (by have := rankB_pos lines.length idx hidx; omega)
  | succ n ih =>
    obtain ⟨ihP, ihA, ihL, ihB⟩ := ih
    have fuel_succ : ∀ (f r : Nat), r ≤ f → 1 ≤ r → ∃ f', f = f' + 1 := by
      intro f r hf h1
      exact ⟨f - 1, by omega⟩
    refine ⟨?_, ?_, ?_, ?_⟩
    -- GoodP
    · intro strip lines base i acc hrank
      by_cases hi : i < lines.length
      · by_cases hind : indentOf (getLine lines i) < base
        · refine ⟨(acc, i), le_refl _, fun h => h, fun _ => Or.inl hind, ?_⟩
          intro f hf
          obtain ⟨f', rfl⟩ := fuel_succ f _ hf (rankP_pos _ _)
          simp only [parsePropsF]
          rw [if_pos hi, if_pos hind]
        · by_cases hbul : isBulletS (getLine lines i) = true
          · refine ⟨(acc, i), le_refl _, fun h => h, fun _ => Or.inr hbul, ?_⟩
            intro f hf
            obtain ⟨f', rfl⟩ := fuel_succ f _ hf (rankP_pos _ _)
            simp only [parsePropsF]
            rw [if_pos hi, if_neg hind, if_pos hbul]
          · have hranks : rankP lines.length (i + 1) + 4 = rankP lines.length i := by
              simp only [rankP]; omega
            have step : ∀ acc' : List (String × SchemaNode),
                ∃ pr : List (String × SchemaNode) × Nat,
                  i ≤ pr.2 ∧ (i ≤ lines.length → pr.2 ≤ lines.length) ∧
                  (pr.2 < lines.length →
                    indentOf (getLine lines pr.2) < base ∨
                      isBulletS (getLine lines pr.2) = true) ∧
                  ∀ f, rankP lines.length (i + 1) ≤ f →
                    parsePropsF strip f lines base (i + 1) acc' = some pr := by
              intro acc'
              obtain ⟨pr, q1, q2, q3, q4⟩ :=
                ihP strip lines base (i + 1) acc' (by omega)
              exact ⟨pr, by omega, fun _ => q2 (by omega), q3, q4⟩
            by_cases hcol : hasColon (lstripSpaces (getLine lines i)) = true
            · by_cases henum :
                  (startsQ (remOfLine (getLine lines i)) '[' &&
                    endsQ (remOfLine (getLine lines i)) ']') = true
              · obtain ⟨pr, q1, q2, q3, q4⟩ := step
                  (dictInsert acc (keyOfLine strip (getLine lines i))
                    (SchemaNode.strEnum (resolve_enum (remOfLine (getLine lines i)))))
                refine ⟨pr, q1, q2, q3, ?_⟩
                intro f hf
                obtain ⟨f', rfl⟩ := fuel_succ f _ hf (rankP_pos _ _)
                simp only [parsePropsF]
                rw [if_pos hi, if_neg hind, if_neg (by simp [hbul]),
                  if_neg (by simp [hcol]), if_pos henum]
                exact q4 f' (by omega)
              · by_cases hdesc : remOfLine (getLine lines i) ≠ ""
                · obtain ⟨pr, q1, q2, q3, q4⟩ := step
                    (dictInsert acc (keyOfLine strip (getLine lines i))
                      (SchemaNode.strDesc (remOfLine (getLine lines i))))
                  refine ⟨pr, q1, q2, q3, ?_⟩
                  intro f hf
                  obtain ⟨f', rfl⟩ := fuel_succ f _ hf (rankP_pos _ _)
                  simp only [parsePropsF]
                  rw [if_pos hi, if_neg hind, if_neg (by simp [hbul]),
                    if_neg (by simp [hcol]), if_neg (by simp [henum]), if_pos hdesc]
                  exact q4 f' (by omega)
                · by_cases hnext : i + 1 < lines.length
                  · by_cases harr :
                        (isBulletW (getLine lines (i + 1)) &&
                          decide (indentOf (getLine lines i) <
                            indentOf (getLine lines (i + 1)))) = true
                    · obtain ⟨ar, a1, a2, a3⟩ :=
                        ihA strip lines (i + 1) (by omega)
                          (by simp only [rankA, rankP] at hrank ⊢; omega)
                      obtain ⟨defn, ni⟩ := ar
                      simp only at a1 a2 a3
                      have harx : ni ≤ lines.length := a2 (by omega)
                      obtain ⟨pr, q1, q2, q3, q4⟩ :=
                        ihP strip lines base ni
                          (dictInsert acc (keyOfLine strip (getLine lines i)) defn)
                          (by simp only [rankP] at hrank ⊢; omega)
                      refine ⟨pr, by omega, fun _ => q2 (by omega), q3, ?_⟩
                      intro f hf
                      obtain ⟨f', rfl⟩ := fuel_succ f _ hf (rankP_pos _ _)
                      simp only [parsePropsF]
                      rw [if_pos hi, if_neg hind, if_neg (by simp [hbul]),
                        if_neg (by simp [hcol]), if_neg (by simp [henum]),
                        if_neg hdesc, if_pos hnext, if_pos harr,
                        a3 f' (by simp only [rankA, rankP] at hf ⊢; omega)]
                      exact q4 f' (by simp only [rankP] at hf ⊢; omega)
                    · obtain ⟨pr, q1, q2, q3, q4⟩ := step
                        (dictInsert acc (keyOfLine strip (getLine lines i))
                          SchemaNode.strLeaf)
                      refine ⟨pr, q1, q2, q3, ?_⟩
                      intro f hf
                      obtain ⟨f', rfl⟩ := fuel_succ f _ hf (rankP_pos _ _)
                      simp only [parsePropsF]
                      rw [if_pos hi, if_neg hind, if_neg (by simp [hbul]),
                        if_neg (by simp [hcol]), if_neg (by simp [henum]),
                        if_neg hdesc, if_pos hnext, if_neg harr]
                      exact q4 f' (by omega)
                  · obtain ⟨pr, q1, q2, q3, q4⟩ := step
                      (dictInsert acc (keyOfLine strip (getLine lines i))
                        SchemaNode.strLeaf)
                    refine ⟨pr, q1, q2, q3, ?_⟩
                    intro f hf
                    obtain ⟨f', rfl⟩ := fuel_succ f _ hf (rankP_pos _ _)
                    simp only [parsePropsF]
                    rw [if_pos hi, if_neg hind, if_neg (by simp [hbul]),
                      if_neg (by simp [hcol]), if_neg (by simp [henum]),
                      if_neg hdesc, if_neg hnext]
                    exact q4 f' (by omega)
            · obtain ⟨pr, q1, q2, q3, q4⟩ := step acc
              refine ⟨pr, q1, q2, q3, ?_⟩
              intro f hf
              obtain ⟨f', rfl⟩ := fuel_succ f _ hf (rankP_pos _ _)
              simp only [parsePropsF]
              rw [if_pos hi, if_neg hind, if_neg (by simp [hbul]),
                if_pos (by simp [hcol])]
              exact q4 f' (by omega)
      · refine ⟨(acc, i), le_refl _, fun h => by omega, fun h => absurd h hi, ?_⟩
        intro f hf
        obtain ⟨f', rfl⟩ := fuel_succ f _ hf (rankP_pos _ _)
        simp only [parsePropsF]
        rw [if_neg hi]
    -- GoodA
    · intro strip lines start h1 hrank
      by_cases hs : start < lines.length
      · obtain ⟨lr, l1, l2, l3⟩ :=
          ihL strip lines (indentOf (getLine lines start)) start [] h1
            (by simp only [rankL, rankA] at hrank ⊢; omega)
        obtain ⟨items, ridx⟩ := lr
        simp only at l1 l2 l3
        refine ⟨(if !items.isEmpty && items.all BulletItem.isObj then
            SchemaNode.arrNode (SchemaNode.objNode (merge_object_schemas items))
          else SchemaNode.arrNode SchemaNode.strLeaf, ridx),
          l1, fun h => l2 h, ?_⟩
        intro f hf
        obtain ⟨f', rfl⟩ := fuel_succ f _ hf (rankA_pos _ _)
        simp only [parseArrayF]
        rw [if_pos hs, l3 f' (by simp only [rankL, rankA] at hf ⊢; omega)]
        by_cases hmerge : (!items.isEmpty && items.all BulletItem.isObj) = true
        · simp [hmerge]
        · simp [hmerge]
      · refine ⟨(SchemaNode.arrNode SchemaNode.strLeaf, start), le_refl _,
          fun h => by omega, ?_⟩
        intro f hf
        obtain ⟨f', rfl⟩ := fuel_succ f _ hf (rankA_pos _ _)
        simp only [parseArrayF]
        rw [if_neg hs]
    -- GoodL
    · intro strip lines bindent idx items h1 hrank
      by_cases hidx : idx < lines.length
      · by_cases hc :
            (decide (indentOf (getLine lines idx) < bindent) ||
              !isBulletW (getLine lines idx)) = true
        · refine ⟨(items, idx), le_refl _, fun h => h, ?_⟩
          intro f hf
          obtain ⟨f', rfl⟩ := fuel_succ f _ hf (rankL_pos _ _)
          simp only [parseArrayLoopF]
          rw [if_pos hidx, if_pos hc]
        · obtain ⟨br, b1, b2, b3⟩ :=
            ihB strip lines idx bindent h1 hidx
              (by simp only [rankB, rankL] at hrank ⊢; omega)
          obtain ⟨item, idx2⟩ := br
          have b1' : idx < idx2 := b1
          have b2' : idx2 ≤ lines.length := b2
          obtain ⟨lr, l1, l2, l3⟩ :=
            ihL strip lines bindent idx2 (items ++ [item]) (by omega)
              (by simp only [rankL] at hrank ⊢; omega)
          refine ⟨lr, by omega, fun h => l2 (by omega), ?_⟩
          intro f hf
          obtain ⟨f', rfl⟩ := fuel_succ f _ hf (rankL_pos _ _)
          simp only [parseArrayLoopF]
          rw [if_pos hidx, if_neg hc,
            b3 f' (by simp only [rankB, rankL] at hf ⊢; omega)]
          exact l3 f' (by simp only [rankL] at hf ⊢; omega)
      · refine ⟨(items, idx), le_refl _, fun h => by omega, ?_⟩
        intro f hf
        obtain ⟨f', rfl⟩ := fuel_succ f _ hf (rankL_pos _ _)
        simp only [parseArrayLoopF]
        rw [if_neg hidx]
    -- GoodB
    · intro strip lines idx bindent h1 hidx hrank
      have hcc1 := (collectConts_spec lines bindent (idx + 1)).1
      have hcc2 := (collectConts_spec lines bindent (idx + 1)).2 (by omega)
      by_cases hanycol : (bulletLinesOf lines idx bindent).any hasColon = true
      · have hnll := normLinesOf_length lines idx bindent hidx
        have hrb := rankP_le_rankB lines.length idx
          (normLinesOf lines idx bindent).length h1 hidx hnll
        obtain ⟨pr, q1, q2, q3, q4⟩ :=
          ihP strip (normLinesOf lines idx bindent) 0 0 []
            (by omega)
        obtain ⟨props, prest⟩ := pr
        refine ⟨(BulletItem.objItem props,
          (collectConts lines (idx + 1) bindent).2), by omega, hcc2, ?_⟩
        intro f hf
        obtain ⟨f', rfl⟩ := fuel_succ f _ hf (rankB_pos _ _ hidx)
        simp only [parseBulletF]
        rw [if_pos hidx, if_pos hanycol,
          q4 f' (by omega)]
      · refine ⟨(BulletItem.strItem
            (String.intercalate " " ((bulletLinesOf lines idx bindent).map pyStrip)),
          (collectConts lines (idx + 1) bindent).2), by omega, hcc2, ?_⟩
        intro f hf
        obtain ⟨f', rfl⟩ := fuel_succ f _ hf (rankB_pos _ _ hidx)
        simp only [parseBulletF]
        rw [if_pos hidx, if_neg hanycol]

/-!
## Canonical wrappers and their characterisations
-/

theorem parse_properties_eq (strip : Bool) (lines : List String) (base i : Nat) :
    ∀ f, rankP lines.length i ≤ f →
      parsePropsF strip f lines base i [] =
        some (parse_properties strip lines base i) := by
  obtain ⟨pr, _q1, _q2, _q3, q4⟩ :=
    (parser_fuel (rankP lines.length i)).1 strip lines base i [] (le_refl _)
  have hc : parse_properties strip lines base i = pr := by
    simp only [parse_properties, q4 _ (le_refl _), Option.getD_some]
  intro f hf
  rw [q4 f hf, hc]

/-- The index invariants of `parse_properties`: the returned index never
moves backwards, never passes the end (when starting in range), and when
it stops strictly inside the list the stopping line is a terminator. -/
theorem parse_properties_inv (strip : Bool) (lines : List String) (base i : Nat) :
    i ≤ (parse_properties strip lines base i).2 ∧
    (i ≤ lines.length → (parse_properties strip lines base i).2 ≤ lines.length) ∧
    ((parse_properties strip lines base i).2 < lines.length →
      indentOf (getLine lines (parse_properties strip lines base i).2) < base ∨
        isBulletS (getLine lines (parse_properties strip lines base i).2) = true) := by
  obtain ⟨pr, q1, q2, q3, q4⟩ :=
    (parser_fuel (rankP lines.length i)).1 strip lines base i [] (le_refl _)
  have hc : parse_properties strip lines base i = pr := by
    simp only [parse_properties, q4 _ (le_refl _), Option.getD_some]
  rw [hc]
  exact ⟨q1, q2, q3⟩

theorem parse_array_loop_eq (strip : Bool) (lines : List String)
    (bindent idx : Nat) (h1 : 1 ≤ idx) :
    ∀ f, rankL lines.length idx ≤ f →
      parseArrayLoopF strip f lines bindent idx [] =
        some (parse_array_loop strip lines bindent idx) := by
  obtain ⟨lr, _l1, _l2, l3⟩ :=
    (parser_fuel (rankL lines.length idx)).2.2.1 strip lines bindent idx [] h1 (le_refl _)
  have hc : parse_array_loop strip lines bindent idx = lr := by
    simp only [parse_array_loop, l3 _ (le_refl _), Option.getD_some]
  intro f hf
  rw [l3 f hf, hc]

theorem parse_array_block_eq (strip : Bool) (lines : List String)
    (start : Nat) (h1 : 1 ≤ start) :
    ∀ f, rankA lines.length start ≤ f →
      parseArrayF strip f lines start =
        some (parse_array_block strip lines start) := by
  obtain ⟨ar, _a1, _a2, a3⟩ :=
    (parser_fuel (rankA lines.length start)).2.1 strip lines start h1 (le_refl _)
  have hc : parse_array_block strip lines start = ar := by
    simp only [parse_array_block, a3 _ (le_refl _), Option.getD_some]
  intro f hf
  rw [a3 f hf, hc]

theorem parse_bullet_item_eq (strip : Bool) (lines : List String)
    (idx bindent : Nat) (h1 : 1 ≤ idx) (h2 : idx < lines.length) :
    ∀ f, rankB lines.length idx ≤ f →
      parseBulletF strip f lines idx bindent =
        some (parse_bullet_item strip lines idx bindent) := by
  obtain ⟨br, _b1, _b2, b3⟩ :=
    (parser_fuel (rankB lines.length idx)).2.2.2 strip lines idx bindent h1 h2 (le_refl _)
  have hc : parse_bullet_item strip lines idx bindent = br := by
    simp only [parse_bullet_item, b3 _ (le_refl _), Option.getD_some]
  intro f hf
  rw [b3 f hf, hc]

/-- `parse_array_block` in terms of its collecting loop: collect the
bullet items, then either merge (all objects, at least one item) or fall
back to a plain string array. -/
theorem parse_array_block_via_loop (strip : Bool) (lines : List String)
    (start : Nat) (h1 : 1 ≤ start) (hs : start < lines.length) :
    parse_array_block strip lines start =
      (if !(parse_array_loop strip lines (indentOf (getLine lines start)) start).1.isEmpty &&
          (parse_array_loop strip lines (indentOf (getLine lines start)) start).1.all
            BulletItem.isObj then
        (SchemaNode.arrNode (SchemaNode.objNode (merge_object_schemas
          (parse_array_loop strip lines (indentOf (getLine lines start)) start).1)),
          (parse_array_loop strip lines (indentOf (getLine lines start)) start).2)
      else (SchemaNode.arrNode SchemaNode.strLeaf,
          (parse_array_loop strip lines (indentOf (getLine lines start)) start).2)) := by
  rcases hp : parse_array_loop strip lines (indentOf (getLine lines start)) start
    with ⟨items, idx⟩
  have hloopf := parse_array_loop_eq strip lines (indentOf (getLine lines start))
    start h1 (rankL lines.length start) (le_refl _)
  rw [hp] at hloopf
  have hr : rankA lines.length start = rankL lines.length start + 1 := by
    simp only [rankA, rankL]
  have hb := parse_array_block_eq strip lines start h1 (rankA lines.length start) (le_refl _)
  rw [hr] at hb
  simp only [parseArrayF] at hb
  rw [if_pos hs, hloopf] at hb
  cases hmb : (!items.isEmpty && items.all BulletItem.isObj) with
  | true =>
    simp only [hmb, if_true] at hb ⊢
    exact (Option.some.inj hb).symm
  | false =>
    simp only [hmb, Bool.false_eq_true, if_false] at hb ⊢
    exact (Option.some.inj hb).symm

/-!
## The marker scan
-/

theorem findMarkerAux_none (lines : List String) :
    ∀ fuel i, (∀ j, i ≤ j → j < lines.length → pyStrip (getLine lines j) ≠ "::::") →
      findMarkerAux lines fuel i = none := by
  intro fuel
  induction fuel with
  | zero => intro i _h; rfl
  | succ fuel ih =>
    intro i h
    by_cases hil : i < lines.length
    · simp only [findMarkerAux, if_pos hil, if_neg (h i (le_refl _) hil)]
      exact ih (i + 1) (fun j hj hjl => h j (by omega) hjl)
    · simp only [findMarkerAux, if_neg hil]

theorem findMarkerFrom_none (lines : List String) :
    ∀ i, (∀ j, i ≤ j → j < lines.length → pyStrip (getLine lines j) ≠ "::::") →
      findMarkerFrom lines i = none := by
  intro i h
  exact findMarkerAux_none lines (lines.length - i) i h

theorem findMarkerAux_some (lines : List String) :
    ∀ fuel i m, lines.length - i ≤ fuel → i ≤ m → m < lines.length →
      pyStrip (getLine lines m) = "::::" →
      (∀ j, i ≤ j → j < m → pyStrip (getLine lines j) ≠ "::::") →
      findMarkerAux lines fuel i = some m := by
  intro fuel
  induction fuel with
  | zero =>
    intro i m hfuel him hml _hm _h
    omega
  | succ fuel ih =>
    intro i m hfuel him hml hm h
    by_cases hieq : i = m
    · subst hieq
      simp only [findMarkerAux, if_pos hml, if_pos hm]
    · simp only [findMarkerAux, if_pos (show i < lines.length by omega),
        if_neg (h i (le_refl _) (by omega))]
      exact ih (i + 1) m (by omega) (by omega) hml hm
        (fun j hj hjm => h j (by omega) hjm)

theorem findMarkerFrom_some (lines : List String) :
    ∀ i m, i ≤ m → m < lines.length → pyStrip (getLine lines m) = "::::" →
      (∀ j, i ≤ j → j < m → pyStrip (getLine lines j) ≠ "::::") →
      findMarkerFrom lines i = some m := by
  intro i m him hml hm h
  exact findMarkerAux_some lines (lines.length - i) i m (le_refl _) him hml hm h

/-!
## Dictionary lemmas: last-write-wins lookup
-/

/-- The value the last occurrence of `k` in an association list assigns to
it — the "later writes win" reading of a sequence of Python dict
assignments. -/
def lookupLast {α : Type} (src : List (String × α)) (k : String) : Option α :=
  src.foldl (fun acc p => if p.1 = k then some p.2 else acc) none

/-- All properties contributed by the object items of a bullet-item list,
in order (string items contribute nothing, as in
`merge_object_schemas`). -/
def concatProps (items : List BulletItem) : List (String × SchemaNode) :=
  (items.map (fun it =>
    match it with
    | BulletItem.objItem p => p
    | BulletItem.strItem _ => [])).flatten

theorem foldl_lookup_acc {α : Type} (src : List (String × α)) (k : String) :
    ∀ acc, src.foldl (fun acc p => if p.1 = k then some p.2 else acc) acc =
      match lookupLast src k with
      | some v => some v
      | none => acc := by
  induction src with
  | nil => intro acc; simp [lookupLast]
  | cons p rest ih =>
    intro acc
    have hll : lookupLast (p :: rest) k =
        match lookupLast rest k with
        | some v => some v
        | none => if p.1 = k then some p.2 else none := by
      simp only [lookupLast, List.foldl_cons]
      exact ih (if p.1 = k then some p.2 else none)
    simp only [List.foldl_cons]
    rw [ih (if p.1 = k then some p.2 else acc), hll]
    cases lookupLast rest k with
    | none => by_cases hp : p.1 = k <;> simp [hp]
    | some v => simp

theorem lookupLast_cons {α : Type} (p : String × α) (rest : List (String × α))
    (k : String) :
    lookupLast (p :: rest) k =
      match lookupLast rest k with
      | some v => some v
      | none => if p.1 = k then some p.2 else none := by
  simp only [lookupLast, List.foldl_cons]
  exact foldl_lookup_acc rest k (if p.1 = k then some p.2 else none)

theorem lookupLast_append {α : Type} (a b : List (String × α)) (k : String) :
    lookupLast (a ++ b) k =
      match lookupLast b k with
      | some v => some v
      | none => lookupLast a k := by
  simp only [lookupLast, List.foldl_append]
  exact foldl_lookup_acc b k (lookupLast a k)

theorem dictLookup_nil {α : Type} (k : String) :
    dictLookup ([] : List (String × α)) k = none := rfl

theorem dictLookup_cons {α : Type} (p : String × α) (rest : List (String × α))
    (k : String) :
    dictLookup (p :: rest) k =
      if p.1 = k then some p.2 else dictLookup rest k := by
  simp only [dictLookup, List.find?]
  by_cases hp : p.1 = k
  · simp [hp]
  · simp [hp, beq_eq_false_iff_ne.mpr hp]

/-!
## Dictionary lemmas: last-write-wins lookup
-/

theorem bool_eq_false {b : Bool} (h : ¬ b = true) : b = false := by
  cases b
  · rfl
  · exact absurd rfl h

theorem dictLookup_map_replace_ne {α : Type} (d : List (String × α))
    (k k' : String) (v : α) (hne : k' ≠ k) :
    dictLookup (d.map (fun p => if p.1 == k then (k, v) else p)) k' =
      dictLookup d k' := by
  induction d with
  | nil => rfl
  | cons p rest ih =>
    simp only [List.map_cons]
    by_cases hp : (p.1 == k) = true
    · rw [if_pos hp, dictLookup_cons, dictLookup_cons]
      have hpk : p.1 = k := eq_of_beq hp
      rw [if_neg (show ¬ k = k' from fun h => hne h.symm),
        if_neg (show ¬ p.1 = k' from by rw [hpk]; exact fun h => hne h.symm)]
      exact ih
    · rw [if_neg hp, dictLookup_cons, dictLookup_cons]
      by_cases hq : p.1 = k'
      · rw [if_pos hq, if_pos hq]
      · rw [if_neg hq, if_neg hq]
        exact ih

theorem dictLookup_map_replace_eq {α : Type} (d : List (String × α))
    (k : String) (v : α) (hmem : d.any (fun p => p.1 == k) = true) :
    dictLookup (d.map (fun p => if p.1 == k then (k, v) else p)) k = some v := by
  induction d with
  | nil => simp at hmem
  | cons p rest ih =>
    simp only [List.map_cons]
    by_cases hp : (p.1 == k) = true
    · rw [if_pos hp, dictLookup_cons, if_pos rfl]
    · have hpf : (p.1 == k) = false := bool_eq_false hp
      rw [if_neg hp, dictLookup_cons,
        if_neg (show ¬ p.1 = k from fun h => by simp [h] at hpf)]
      apply ih
      simp only [List.any_cons, hpf, Bool.false_or] at hmem
      exact hmem

theorem dictLookup_append_single {α : Type} (d : List (String × α))
    (k k' : String) (v : α) :
    dictLookup (d ++ [(k, v)]) k' =
      match dictLookup d k' with
      | some w => some w
      | none => if k' = k then some v else none := by
  induction d with
  | nil =>
    simp only [List.nil_append, dictLookup_cons, dictLookup_nil]
    by_cases hk : k = k'
    · subst hk
      simp
    · rw [if_neg hk, if_neg (fun h => hk h.symm)]
  | cons p rest ih =>
    simp only [List.cons_append, dictLookup_cons]
    by_cases hp : p.1 = k'
    · simp [hp]
    · rw [if_neg hp, if_neg hp]
      exact ih

theorem dictLookup_not_mem {α : Type} (d : List (String × α)) (k : String)
    (hmem : d.any (fun p => p.1 == k) = false) :
    dictLookup d k = none := by
  induction d with
  | nil => rfl
  | cons p rest ih =>
    simp only [List.any_cons, Bool.or_eq_false_iff] at hmem
    rw [dictLookup_cons, if_neg (by simpa using hmem.1)]
    exact ih hmem.2

/-- Lookup after a single Python-dict assignment: the assigned key now maps
to the new value, all other keys are unchanged. -/
theorem dictLookup_insert {α : Type} (d : List (String × α)) (k k' : String)
    (v : α) :
    dictLookup (dictInsert d k v) k' =
      if k' = k then some v else dictLookup d k' := by
  by_cases hmem : d.any (fun p => p.1 == k) = true
  · rw [dictInsert, if_pos hmem]
    by_cases hk : k' = k
    · rw [if_pos hk, hk]
      exact dictLookup_map_replace_eq d k v hmem
    · rw [if_neg hk]
      exact dictLookup_map_replace_ne d k k' v hk
  · rw [dictInsert, if_neg hmem, dictLookup_append_single]
    have hnone : dictLookup d k = none :=
      dictLookup_not_mem d k (bool_eq_false hmem)
    by_cases hk : k' = k
    · subst hk
      rw [hnone]
    · cases hd : dictLookup d k' with
      | none => simp [hk]
      | some w => simp [hk]

/-- Lookup after `dict.update`: the source's last binding for the key wins,
otherwise the target is unchanged. -/
theorem dictLookup_update {α : Type} (src : List (String × α)) (k : String) :
    ∀ d, dictLookup (dictUpdate d src) k =
      match lookupLast src k with
      | some v => some v
      | none => dictLookup d k := by
  induction src with
  | nil => intro d; simp [dictUpdate, lookupLast]
  | cons p rest ih =>
    intro d
    have hu : dictUpdate d (p :: rest) = dictUpdate (dictInsert d p.1 p.2) rest := by
      simp [dictUpdate]
    rw [hu, ih, lookupLast_cons]
    cases lookupLast rest k with
    | some v => rfl
    | none =>
      simp only []
      rw [dictLookup_insert]
      by_cases hk : k = p.1
      · rw [if_pos hk, if_pos hk.symm]
      · rw [if_neg hk, if_neg (fun h => hk h.symm)]

/-- The merged object schema of a bullet-item list maps each key to the
value assigned by the last object item (and, within an item, the last
binding) that mentions it — last write wins across the whole
concatenation. -/
theorem merge_lookup (items : List BulletItem) (k : String) :
    dictLookup (merge_object_schemas items) k = lookupLast (concatProps items) k := by
  have H : ∀ (its : List BulletItem) (d : List (String × SchemaNode)),
      dictLookup (its.foldl
        (fun acc it =>
          match it with
          | BulletItem.objItem p => dictUpdate acc p
          | BulletItem.strItem _ => acc) d) k =
        match lookupLast (concatProps its) k with
        | some v => some v
        | none => dictLookup d k := by
    intro its
    induction its with
    | nil => intro d; simp [concatProps, lookupLast]
    | cons it rest ih =>
      intro d
      have hconcat : concatProps (it :: rest) =
          (match it with
           | BulletItem.objItem p => p
           | BulletItem.strItem _ => []) ++ concatProps rest := by
        simp [concatProps]
      rw [List.foldl_cons, ih, hconcat, lookupLast_append]
      cases lookupLast (concatProps rest) k with
      | some v => rfl
      | none =>
        simp only []
        cases it with
        | objItem p =>
          simp only []
          rw [dictLookup_update]
          cases lookupLast p k with
          | some v => rfl
          | none => rfl
        | strItem s =>
          have : lookupLast ([] : List (String × SchemaNode)) k = none := rfl
          simp only [this]
  rw [merge_object_schemas, H items []]
  cases lookupLast (concatProps items) k with
  | some v => rfl
  | none => rfl

theorem lookupLast_not_mem {α : Type} (d : List (String × α)) (k : String)
    (h : ∀ p ∈ d, p.1 ≠ k) : lookupLast d k = none := by
  induction d with
  | nil => rfl
  | cons p rest ih =>
    rw [lookupLast_cons, ih (fun q hq => h q (by simp [hq]))]
    simp only []
    rw [if_neg (h p (by simp))]

/-- On an association list with pairwise distinct keys — every Python dict
— last-occurrence lookup and first-occurrence lookup agree. -/
theorem lookupLast_eq_dictLookup {α : Type} (d : List (String × α)) (k : String)
    (h : (d.map Prod.fst).Nodup) : lookupLast d k = dictLookup d k := by
  induction d with
  | nil => rfl
  | cons p rest ih =>
    simp only [List.map_cons, List.nodup_cons] at h
    rw [lookupLast_cons, dictLookup_cons]
    by_cases hp : p.1 = k
    · have hrest : lookupLast rest k = none := by
        apply lookupLast_not_mem
        intro q hq hqk
        have hmm : p.1 ∈ List.map Prod.fst rest := by
          rw [hp, ← hqk]
          exact List.mem_map_of_mem Prod.fst hq
        exact h.1 hmm
      rw [hrest]
      simp [hp]
    · rw [ih h.2, if_neg hp]
      cases dictLookup rest k with
      | none => simp [hp]
      | some v => rw [if_neg hp]

/-!
## Claim theorems
-/

/-- C10: in `custom_parse_list`, empty tokens are kept asymmetrically — a
comma preceded by no content contributes an empty-string element
(`"[,a]"` yields `["", "a"]`), whereas a trailing comma contributes
nothing (`"[a,]"` yields `["a"]`), because a token is appended
unconditionally at each comma but the final accumulated token only when
non-empty. -/
theorem claim_C10_empty_token_asymmetry :
    custom_parse_list "[,a]" = ["", "a"] ∧ custom_parse_list "[a,]" = ["a"] :=
  ⟨rfl, rfl⟩

set_option maxHeartbeats 4000000 in
/-- C2: with a key line followed by a single bullet `- Ingredient: a
chicken` whose next line `Quantity: 200g` is indented strictly more than
the bullet, `parse_bullet_item` consumes both lines as one item, the
array's item schema is one object with both keys (descriptions
`"a chicken"` and `"200g"`), and the compiled schema equals the one for
the sibling-bullet form where the two one-key object items are merged. -/
theorem claim_C2_continuation_equals_sibling_merge :
    parse_bullet_item true
      ["Ingredients:", " - Ingredient: a chicken", "   Quantity: 200g"] 1 1 =
      (BulletItem.objItem
        [("Ingredient", SchemaNode.strDesc "a chicken"),
         ("Quantity", SchemaNode.strDesc "200g")], 3) ∧
    extract_response_schema true
      "::::\nIngredients:\n - Ingredient: a chicken\n   Quantity: 200g\n" =
      some (SchemaNode.objNode
        [("Ingredients", SchemaNode.arrNode (SchemaNode.objNode
          [("Ingredient", SchemaNode.strDesc "a chicken"),
           ("Quantity", SchemaNode.strDesc "200g")]))]) ∧
    extract_response_schema true
      "::::\nIngredients:\n - Ingredient: a chicken\n - Quantity: 200g\n" =
      some (SchemaNode.objNode
        [("Ingredients", SchemaNode.arrNode (SchemaNode.objNode
          [("Ingredient", SchemaNode.strDesc "a chicken"),
           ("Quantity", SchemaNode.strDesc "200g")]))]) ∧
    extract_response_schema true
      "::::\nIngredients:\n - Ingredient: a chicken\n   Quantity: 200g\n" =
      extract_response_schema true
        "::::\nIngredients:\n - Ingredient: a chicken\n - Quantity: 200g\n" := by
  have h1 : parse_bullet_item true
      ["Ingredients:", " - Ingredient: a chicken", "   Quantity: 200g"] 1 1 =
      (BulletItem.objItem
        [("Ingredient", SchemaNode.strDesc "a chicken"),
         ("Quantity", SchemaNode.strDesc "200g")], 3) := rfl
  have h2 : extract_response_schema true
      "::::\nIngredients:\n - Ingredient: a chicken\n   Quantity: 200g\n" =
      some (SchemaNode.objNode
        [("Ingredients", SchemaNode.arrNode (SchemaNode.objNode
          [("Ingredient", SchemaNode.strDesc "a chicken"),
           ("Quantity", SchemaNode.strDesc "200g")]))]) := rfl
  have h3 : extract_response_schema true
      "::::\nIngredients:\n - Ingredient: a chicken\n - Quantity: 200g\n" =
      some (SchemaNode.objNode
        [("Ingredients", SchemaNode.arrNode (SchemaNode.objNode
          [("Ingredient", SchemaNode.strDesc "a chicken"),
           ("Quantity", SchemaNode.strDesc "200g")]))]) := rfl
  exact ⟨h1, h2, h3, h2.trans h3.symm⟩

/-- C9: the mutual recursion `parse_properties` → `parse_array_block` →
`parse_bullet_item` → `parse_properties` terminates on every finite line
sequence: a uniform fuel bound (`rankP`) suffices for the fueled model to
return a result, and the normalised continuation block handed to the
nested `parse_properties` call by a bullet at index `idx ≥ 1` is a
strictly smaller line list than the enclosing one (it excludes at least
the enclosing key line). -/
theorem claim_C9_termination (strip : Bool) (lines : List String)
    (base i : Nat) (acc : List (String × SchemaNode)) :
    (∃ pr, ∀ f, rankP lines.length i ≤ f →
        parsePropsF strip f lines base i acc = some pr) ∧
    (∀ idx bindent, 1 ≤ idx → idx < lines.length →
        (normLinesOf lines idx bindent).length < lines.length) := by
  constructor
  · obtain ⟨pr, _, _, _, q4⟩ :=
      (parser_fuel (rankP lines.length i)).1 strip lines base i acc (le_refl _)
    exact ⟨pr, q4⟩
  · intro idx bindent h1 h2
    have := normLinesOf_length lines idx bindent h2
    omega

theorem claim_C9_termination_witness :
    (∃ pr, parsePropsF true (rankP 2 0) ["x:", " - a: b"] 0 0 [] = some pr) ∧
    (normLinesOf ["x:", " - a: b"] 1 1).length < 2 := by
  obtain ⟨⟨pr, hpr⟩, hn⟩ := claim_C9_termination true ["x:", " - a: b"] 0 0 []
  exact ⟨⟨pr, hpr _ (le_refl _)⟩, hn 1 1 (by decide) (by decide)⟩

/-- C1: for every call of `parse_array_block` (always at `start ≥ 1` in
the program): when the collected bullet items are non-empty and all
object nodes, the array's item schema is the single merged object, whose
lookup is last-write-wins over the concatenated properties of all items;
in particular for two sibling object items with pairwise-distinct,
mutually disjoint keys the merged mapping is exactly the union of the
two.  When any collected item is a string leaf, the item schema is
exactly the plain string type and per-item detail is discarded. -/
theorem claim_C1_array_merge (strip : Bool) (lines : List String)
    (start : Nat) (items : List BulletItem) (idx : Nat)
    (h1 : 1 ≤ start) (hs : start < lines.length)
    (hloop : parse_array_loop strip lines (indentOf (getLine lines start)) start =
      (items, idx)) :
    (items ≠ [] → items.all BulletItem.isObj = true →
      parse_array_block strip lines start =
        (SchemaNode.arrNode (SchemaNode.objNode (merge_object_schemas items)), idx) ∧
      ∀ k, dictLookup (merge_object_schemas items) k =
        lookupLast (concatProps items) k) ∧
    ((∃ it ∈ items, BulletItem.isObj it = false) →
      parse_array_block strip lines start =
        (SchemaNode.arrNode SchemaNode.strLeaf, idx)) ∧
    (∀ p q, items = [BulletItem.objItem p, BulletItem.objItem q] →
      (p.map Prod.fst).Nodup → (q.map Prod.fst).Nodup →
      (∀ k, ¬((dictLookup p k).isSome ∧ (dictLookup q k).isSome)) →
      ∀ k, dictLookup (merge_object_schemas items) k =
        Option.or (dictLookup p k) (dictLookup q k)) := by
  have hvia := parse_array_block_via_loop strip lines start h1 hs
  rw [hloop] at hvia
  refine ⟨?_, ?_, ?_⟩
  · intro hne hall
    have hcond : (!items.isEmpty && items.all BulletItem.isObj) = true := by
      rw [hall]
      simp [List.isEmpty_iff, hne]
    rw [hvia, if_pos hcond]
    exact ⟨rfl, fun k => merge_lookup items k⟩
  · intro hbad
    obtain ⟨it, hmem, hfalse⟩ := hbad
    have hall : items.all BulletItem.isObj = false := by
      rw [List.all_eq_false]
      exact ⟨it, hmem, by simp [hfalse]⟩
    rw [hvia, if_neg (by simp [hall])]
  · intro p q hitems hp hq hdisj k
    subst hitems
    have hcp : concatProps [BulletItem.objItem p, BulletItem.objItem q] =
        p ++ (q ++ []) := by
      simp [concatProps]
    rw [merge_lookup, hcp, lookupLast_append, lookupLast_append]
    have hlp := lookupLast_eq_dictLookup p k hp
    have hlq := lookupLast_eq_dictLookup q k hq
    have hnil : lookupLast ([] : List (String × SchemaNode)) k = none := rfl
    rw [hnil]
    cases hdq : dictLookup q k with
    | some v =>
      rw [hlq, hdq]
      have hdp : dictLookup p k = none := by
        cases hdp : dictLookup p k with
        | none => rfl
        | some w =>
          exact absurd ⟨by simp [hdp], by simp [hdq]⟩ (hdisj k)
      rw [hdp]
      rfl
    | none =>
      rw [hlq, hdq]
      cases hdp : dictLookup p k with
      | none =>
        rw [hlp, hdp]
        rfl
      | some w =>
        rw [hlp, hdp]
        rfl

theorem claim_C1_array_merge_witness :
    parse_array_block true ["k:", " - a: x", " - b: y"] 1 =
      (SchemaNode.arrNode (SchemaNode.objNode
        [("a", SchemaNode.strDesc "x"), ("b", SchemaNode.strDesc "y")]), 3) ∧
    dictLookup (merge_object_schemas
      [BulletItem.objItem [("a", SchemaNode.strDesc "x")],
       BulletItem.objItem [("b", SchemaNode.strDesc "y")]]) "b" =
      Option.or (dictLookup [("a", SchemaNode.strDesc "x")] "b")
        (dictLookup [("b", SchemaNode.strDesc "y")] "b") := by
  have h := claim_C1_array_merge true ["k:", " - a: x", " - b: y"] 1
    [BulletItem.objItem [("a", SchemaNode.strDesc "x")],
     BulletItem.objItem [("b", SchemaNode.strDesc "y")]] 3
    (by decide) (by decide) rfl
  constructor
  · have h2 := (h.1 (by simp) rfl).1
    rw [h2]
    rfl
  · apply h.2.2 _ _ rfl (by decide) (by decide)
    intro k hk
    by_cases ha : ("a" : String) = k
    · rcases hk with ⟨_, hqk⟩
      rw [← ha, dictLookup_cons, if_neg (by decide), dictLookup_nil] at hqk
      simp at hqk
    · rcases hk with ⟨hpk, _⟩
      rw [dictLookup_cons, if_neg ha, dictLookup_nil] at hpk
      simp at hpk

/-- C5: if no line of the input trims to `::::`, `extract_response_schema`
returns the absent sentinel `none`; if the first such line is at index
`m`, it returns exactly the document
`objNode (parse_properties … 0 0).1` built from the lines after the
marker, blank lines dropped (and right-trimmed, as in the source), at
base indent `0` and start index `0`.  This holds for both copies. -/
theorem claim_C5_extract_marker (strip : Bool) (text : String) :
    ((∀ li ∈ pySplitlines text, pyStrip li ≠ "::::") →
      extract_response_schema strip text = none) ∧
    (∀ m, m < (pySplitlines text).length →
      pyStrip (getLine (pySplitlines text) m) = "::::" →
      (∀ j, j < m → pyStrip (getLine (pySplitlines text) j) ≠ "::::") →
      extract_response_schema strip text =
        some (SchemaNode.objNode (parse_properties strip
          ((((pySplitlines text).drop (m + 1)).filter
            (fun li => pyStrip li ≠ "")).map pyRstrip) 0 0).1)) := by
  constructor
  · intro h
    have hnone : findMarkerFrom (pySplitlines text) 0 = none := by
      apply findMarkerFrom_none
      intro j _ hj
      apply h
      have hg : getLine (pySplitlines text) j = (pySplitlines text)[j] := by
        simp [getLine, List.getD_eq_getElem?_getD, List.getElem?_eq_getElem hj]
      rw [hg]
      exact List.getElem_mem hj
    simp only [extract_response_schema, hnone]
  · intro m hm hmk hfirst
    have hsome : findMarkerFrom (pySplitlines text) 0 = some m :=
      findMarkerFrom_some _ 0 m (Nat.zero_le _) hm hmk (fun j _ hj => hfirst j hj)
    simp only [extract_response_schema, hsome]

theorem claim_C5_extract_marker_witness :
    extract_response_schema true "no marker" = none ∧
    extract_response_schema true "x\n::::\na: b\n" =
      some (SchemaNode.objNode (parse_properties true ["a: b"] 0 0).1) := by
  constructor
  · exact (claim_C5_extract_marker true "no marker").1 (by decide)
  · have h := (claim_C5_extract_marker true "x\n::::\na: b\n").2 1 (by decide)
      (by decide) (by
        intro j hj
        have hj0 : j = 0 := by omega
        subst hj0
        decide)
    rw [h]
    rfl

/-- C7 (counterexample): the walk of `parse_properties` does not stop at
the first bullet line of the range — a bullet line consumed by a nested
array block is passed over.  On `["a:", " - x", "b: c"]` at base indent
`0` the first terminator line (bullet) is at index `1`, yet the returned
index is `3`. -/
theorem claim_C7_counterexample :
    (parse_properties true ["a:", " - x", "b: c"] 0 0).2 = 3 ∧
    List.findIdx? (fun li => decide (indentOf li < 0) || isBulletS li)
      ["a:", " - x", "b: c"] = some 1 ∧
    (parse_properties true ["a:", " - x", "b: c"] 0 0).2 ≠ 1 := by
  refine ⟨rfl, rfl, by decide⟩

/-- C7 (amended): a line whose indent is at least the base indent, which
is not a bullet line and whose content has no colon, is skipped — the
walk continues at the next index with nothing recorded; and the block
ends only at end of input, at a line less indented than the base, or at
a bullet line (the returned index points at such a line), though bullet
lines consumed inside nested array blocks may precede it. -/
theorem claim_C7_amended_skip_and_stop (strip : Bool) (lines : List String)
    (base i : Nat) :
    (i < lines.length →
      ¬ indentOf (getLine lines i) < base →
      isBulletS (getLine lines i) = false →
      hasColon (lstripSpaces (getLine lines i)) = false →
      parse_properties strip lines base i = parse_properties strip lines base (i + 1)) ∧
    (i ≤ (parse_properties strip lines base i).2 ∧
     (i ≤ lines.length → (parse_properties strip lines base i).2 ≤ lines.length) ∧
     ((parse_properties strip lines base i).2 < lines.length →
       indentOf (getLine lines (parse_properties strip lines base i).2) < base ∨
         isBulletS (getLine lines (parse_properties strip lines base i).2) = true)) := by
  constructor
  · intro hi hind hbul hcol
    have h1 := parse_properties_eq strip lines base i (rankP lines.length i) (le_refl _)
    have hr4 : rankP lines.length (i + 1) + 4 = rankP lines.length i := by
      simp only [rankP]; omega
    have h2 := parse_properties_eq strip lines base (i + 1)
      (rankP lines.length i - 1) (by omega)
    have hstep : parsePropsF strip (rankP lines.length i) lines base i [] =
        parsePropsF strip (rankP lines.length i - 1) lines base (i + 1) [] := by
      obtain ⟨f', hf'⟩ : ∃ f', rankP lines.length i = f' + 1 :=
        ⟨rankP lines.length i - 1, by have := rankP_pos lines.length i; omega⟩
      rw [hf']
      simp only [parsePropsF]
      rw [if_pos hi, if_neg hind, if_neg (by simp [hbul]), if_pos (by simp [hcol])]
      simp
    rw [hstep, h2] at h1
    exact (Option.some.inj h1).symm
  · exact parse_properties_inv strip lines base i

theorem claim_C7_amended_witness :
    parse_properties true ["x", "a: b"] 0 0 = parse_properties true ["x", "a: b"] 0 1 ∧
    0 ≤ (parse_properties true ["x", "a: b"] 0 0).2 :=
  ⟨(claim_C7_amended_skip_and_stop true ["x", "a: b"] 0 0).1 (by decide) (by decide)
      (by decide) (by decide),
    (claim_C7_amended_skip_and_stop true ["x", "a: b"] 0 0).2.1⟩

/-!
## C8: leniency of `custom_parse_list`
-/

theorem string_data_push (s : String) (c : Char) :
    (s.push c).data = s.data ++ [c] := rfl

/-- Once the scanner of `custom_parse_list` is inside a quoted span whose
quote character never recurs (and no escape appears), every remaining
character accumulates into the current token, which is emitted (trimmed)
at end of input when non-empty — the quote state simply never closes. -/
theorem cplLoop_unterminated (q : Char) :
    ∀ (rest : List Char) (cur : String) (toks : List String),
      rest.all (fun c => !(c == q) && !(c == '\\')) = true →
      cplLoop rest true q false cur toks =
        if (cur.data ++ rest).isEmpty then toks
        else toks ++ [pyStrip (String.mk (cur.data ++ rest))] := by
  intro rest
  induction rest with
  | nil =>
    intro cur toks _h
    obtain ⟨data⟩ := cur
    cases data with
    | nil => simp [cplLoop]
    | cons c cs =>
      have hne : String.mk (c :: cs) ≠ "" := by
        intro h
        have := congrArg String.data h
        simp at this
      simp [cplLoop, hne]
  | cons c rest ih =>
    intro cur toks h
    simp only [List.all_cons, Bool.and_eq_true] at h
    obtain ⟨⟨hcq, hcb⟩, hrest⟩ := h
    have hcq' : (c == q) = false := by
      cases hx : (c == q) with
      | false => rfl
      | true => rw [hx] at hcq; exact absurd hcq (by simp)
    have hcb' : (c == '\\') = false := by
      cases hx : (c == '\\') with
      | false => rfl
      | true => rw [hx] at hcb; exact absurd hcb (by simp)
    have hstep : cplLoop (c :: rest) true q false cur toks =
        cplLoop rest (c != q) q false (cur.push c) toks := by
      simp [cplLoop, hcb']
    have hbne : (c != q) = true := by simp [bne, hcq']
    rw [hstep, hbne, ih (cur.push c) toks hrest, string_data_push]
    simp [List.append_assoc]

/-- C8: `custom_parse_list` is total and lenient.  It is a total Lean
function (no exception path exists in the model); brackets whose interior
is empty or only whitespace yield `[]`; and an unterminated quote never
fails — once a quote is open and its quote character never recurs, the
scanner stays in the quote state and the remaining characters accumulate
into the final token, as on the concrete input `"['a, b]"`. -/
theorem claim_C8_total_and_lenient :
    (∀ text : String, pyStrip (pyInterior text) = "" →
      custom_parse_list text = []) ∧
    (∀ (q : Char) (rest : List Char) (cur : String) (toks : List String),
      rest.all (fun c => !(c == q) && !(c == '\\')) = true →
      cplLoop rest true q false cur toks =
        if (cur.data ++ rest).isEmpty then toks
        else toks ++ [pyStrip (String.mk (cur.data ++ rest))]) ∧
    custom_parse_list "['a, b]" = ["'a, b"] := by
  refine ⟨?_, ?_, rfl⟩
  · intro text h
    simp [custom_parse_list, h]
  · exact cplLoop_unterminated

theorem claim_C8_total_and_lenient_witness :
    custom_parse_list "[   ]" = [] ∧
    cplLoop ['a', ',', 'b'] true '\'' false "'x" [] = ["'xa,b"] := by
  constructor
  · exact claim_C8_total_and_lenient.1 "[   ]" (by decide)
  · rw [claim_C8_total_and_lenient.2.1 '\'' ['a', ',', 'b'] "'x" [] (by decide)]
    rfl

/-!
## Single property-line evaluations and key-trimming lemmas (for C6, C3)
-/

/-- One unfolding step of `parsePropsF` on a description line: the pair is
recorded and the walk moves to the next index. -/
theorem parsePropsF_desc_step (strip : Bool) (line : String)
    (props : List (String × SchemaNode))
    (hbul : isBulletS line = false)
    (hcol : hasColon (lstripSpaces line) = true)
    (henum : (startsQ (remOfLine line) '[' && endsQ (remOfLine line) ']') = false)
    (hdesc : remOfLine line ≠ "") :
    ∀ f, parsePropsF strip (f + 1) [line] 0 0 props =
      parsePropsF strip f [line] 0 1
        (dictInsert props (keyOfLine strip line)
          (SchemaNode.strDesc (remOfLine line))) := by
  intro f
  simp only [parsePropsF]
  rw [if_pos (show (0 : Nat) < ([line] : List String).length from Nat.one_pos),
    show getLine [line] 0 = line from rfl,
    if_neg (by omega : ¬ indentOf line < 0),
    if_neg (by simp [hbul]),
    if_neg (by simp [hcol]),
    if_neg (by simp [henum]),
    if_pos hdesc]

/-- One unfolding step of `parsePropsF` on an enum (bracketed) line. -/
theorem parsePropsF_enum_step (strip : Bool) (line : String)
    (props : List (String × SchemaNode))
    (hbul : isBulletS line = false)
    (hcol : hasColon (lstripSpaces line) = true)
    (henum : (startsQ (remOfLine line) '[' && endsQ (remOfLine line) ']') = true) :
    ∀ f, parsePropsF strip (f + 1) [line] 0 0 props =
      parsePropsF strip f [line] 0 1
        (dictInsert props (keyOfLine strip line)
          (SchemaNode.strEnum (resolve_enum (remOfLine line)))) := by
  intro f
  simp only [parsePropsF]
  rw [if_pos (show (0 : Nat) < ([line] : List String).length from Nat.one_pos),
    show getLine [line] 0 = line from rfl,
    if_neg (by omega : ¬ indentOf line < 0),
    if_neg (by simp [hbul]),
    if_neg (by simp [hcol]),
    if_pos henum]

/-- `parsePropsF` past the end of a one-line list returns the accumulator. -/
theorem parsePropsF_single_stop (strip : Bool) (line : String)
    (props : List (String × SchemaNode)) :
    ∀ f, parsePropsF strip (f + 1) [line] 0 1 props = some (props, 1) := by
  intro f
  simp only [parsePropsF]
  rw [if_neg (show ¬ ((1 : Nat) < ([line] : List String).length) from
    fun h => Nat.lt_irrefl 1 h)]

/-- A one-line property list whose line is not a bullet, has a colon, and
whose remainder is a non-bracketed non-empty description, records exactly
that key/description pair and stops at index 1. -/
theorem parse_properties_single (strip : Bool) (line : String)
    (hbul : isBulletS line = false)
    (hcol : hasColon (lstripSpaces line) = true)
    (henum : (startsQ (remOfLine line) '[' && endsQ (remOfLine line) ']') = false)
    (hdesc : remOfLine line ≠ "") :
    parse_properties strip [line] 0 0 =
      ([(keyOfLine strip line, SchemaNode.strDesc (remOfLine line))], 1) := by
  have hlen : ([line] : List String).length = 1 := rfl
  have h1 := parse_properties_eq strip [line] 0 0 (21 + 1 + 1) (by rw [hlen]; decide)
  rw [parsePropsF_desc_step strip line [] hbul hcol henum hdesc (21 + 1),
    parsePropsF_single_stop strip line _ 21] at h1
  exact (Option.some.inj h1).symm

/-- Like `parse_properties_single`, for a bracketed (enum) remainder. -/
theorem parse_properties_single_enum (strip : Bool) (line : String)
    (hbul : isBulletS line = false)
    (hcol : hasColon (lstripSpaces line) = true)
    (henum : (startsQ (remOfLine line) '[' && endsQ (remOfLine line) ']') = true) :
    parse_properties strip [line] 0 0 =
      ([(keyOfLine strip line,
         SchemaNode.strEnum (resolve_enum (remOfLine line)))], 1) := by
  have hlen : ([line] : List String).length = 1 := rfl
  have h1 := parse_properties_eq strip [line] 0 0 (21 + 1 + 1) (by rw [hlen]; decide)
  rw [parsePropsF_enum_step strip line [] hbul hcol henum (21 + 1),
    parsePropsF_single_stop strip line _ 21] at h1
  exact (Option.some.inj h1).symm

theorem lstripSpaces_of_head (c : Char) (l : List Char) (h : (c == ' ') = false) :
    lstripSpaces (String.mk (c :: l)) = String.mk (c :: l) := by
  simp [lstripSpaces, List.dropWhile_cons, h]

theorem pyLstrip_of_head (c : Char) (l : List Char) (h : pyIsSpace c = false) :
    pyLstrip (String.mk (c :: l)) = String.mk (c :: l) := by
  simp [pyLstrip, List.dropWhile_cons, h]

theorem pyLstrip_cons_space (c : Char) (l : List Char) (h : pyIsSpace c = true) :
    pyLstrip (String.mk (c :: l)) = pyLstrip (String.mk l) := by
  simp [pyLstrip, List.dropWhile_cons, h]

theorem pyRstrip_concat (l : List Char) (d : Char) (h : pyIsSpace d = false) :
    pyRstrip (String.mk (l ++ [d])) = String.mk (l ++ [d]) := by
  simp [pyRstrip, List.reverse_append, List.dropWhile_cons, h]

/-- `strip()` leaves a string alone when both endpoint characters are
non-whitespace. -/
theorem pyStrip_of_ends (c : Char) (l : List Char) (d : Char)
    (h1 : pyIsSpace c = false) (h2 : pyIsSpace d = false) :
    pyStrip (String.mk (c :: l ++ [d])) = String.mk (c :: l ++ [d]) := by
  simp only [pyStrip, List.cons_append]
  rw [pyLstrip_of_head c (l ++ [d]) h1]
  have h3 := pyRstrip_concat (c :: l) d h2
  simpa [List.cons_append] using h3

/-- `strip()` absorbs a single leading space. -/
theorem pyStrip_cons_space (v : String) :
    pyStrip (String.mk (' ' :: v.data)) = pyStrip v := by
  simp only [pyStrip]
  rw [pyLstrip_cons_space ' ' v.data (by decide)]

theorem contains_colon (l : List Char) (h : ':' ∈ l) : l.contains ':' = true := by
  simpa using h

theorem splitColonChars_append (a b : List Char) (h : ':' ∉ a) :
    splitColonChars (a ++ ':' :: b) = (a, b) := by
  induction a with
  | nil => simp [splitColonChars]
  | cons c cs ih =>
    simp only [List.mem_cons, not_or] at h
    obtain ⟨h1, h2⟩ := h
    have hc : (c == ':') = false := by
      simp only [beq_eq_false_iff_ne]
      exact fun hh => h1 hh.symm
    simp [splitColonChars, hc, ih h2]

theorem startsQ_cons (c : Char) (l : List Char) (q : Char) :
    startsQ (String.mk (c :: l)) q = (c == q) := rfl

theorem endsQ_concat (l : List Char) (d q : Char) :
    endsQ (String.mk (l ++ [d])) q = (d == q) := by
  simp only [endsQ]
  rw [List.getLast?_concat]

theorem pyUnquote_quoted (q : Char) (k : List Char)
    (hq : (q == '"') || (q == '\'') = true) :
    pyUnquote (String.mk (q :: k ++ [q])) = String.mk k := by
  have he : endsQ (String.mk (q :: k ++ [q])) q = true := by
    have h := endsQ_concat (q :: k) q q
    simpa using h
  have hs : startsQ (String.mk (q :: k ++ [q])) q = true := by
    have h := startsQ_cons q (k ++ [q]) q
    simpa using h
  have hint : pyInterior (String.mk (q :: k ++ [q])) = String.mk k := by
    simp only [pyInterior]
    rw [show (String.mk (q :: k ++ [q])).data.drop 1 = k ++ [q] from rfl,
      List.dropLast_concat]
  rcases Bool.or_eq_true_iff.mp hq with h1 | h1
  · have hq' : q = '"' := by simpa using h1
    subst hq'
    simp only [pyUnquote, hs, he, Bool.and_self, Bool.true_or, if_pos]
    exact hint
  · have hq' : q = '\'' := by simpa using h1
    subst hq'
    simp only [pyUnquote, hs, he, Bool.and_self, Bool.or_true, if_pos]
    exact hint

theorem pyUnquote_of_head (c : Char) (l : List Char)
    (h1 : (c == '"') = false) (h2 : (c == '\'') = false) :
    pyUnquote (String.mk (c :: l)) = String.mk (c :: l) := by
  simp [pyUnquote, startsQ, h1, h2]

/-!
## C6: key trimming and quote stripping differ between the two copies
-/

theorem claim_C6_counterexample :
    parse_properties false ["\"k\": v"] 0 0 =
      ([("\"k\"", SchemaNode.strDesc "v")], 1) ∧
    dictLookup (parse_properties false ["\"k\": v"] 0 0).1 "k" = none ∧
    parse_properties true ["\"k\": v"] 0 0 =
      ([("k", SchemaNode.strDesc "v")], 1) :=
  ⟨rfl, rfl, rfl⟩

/-- C6 (amended): for a property line `"k": v` (description payload), the
`test_respsml.py` copy trims the key and strips one layer of surrounding
quotes, recording the property under `k`; the `q_a_with_grounding.py` copy
only trims, recording it under the quoted key `"k"` verbatim. -/
theorem claim_C6_amended (k v : String)
    (hk : ':' ∉ k.data)
    (hv1 : pyStrip v = v) (hv2 : v ≠ "")
    (hv3 : (startsQ v '[' && endsQ v ']') = false) :
    parse_properties true
        [String.mk (('"' :: k.data ++ ['"']) ++ ':' :: ' ' :: v.data)] 0 0 =
      ([(k, SchemaNode.strDesc v)], 1) ∧
    parse_properties false
        [String.mk (('"' :: k.data ++ ['"']) ++ ':' :: ' ' :: v.data)] 0 0 =
      ([(String.mk ('"' :: k.data ++ ['"']), SchemaNode.strDesc v)], 1) := by
  have hA : ':' ∉ ('"' :: k.data ++ ['"'] : List Char) := by
    intro h
    rcases List.mem_append.mp h with h | h
    · rcases List.mem_cons.mp h with h | h
      · exact absurd h (by decide)
      · exact hk h
    · exact absurd (List.mem_singleton.mp h) (by decide)
  have hlst : lstripSpaces
      (String.mk (('"' :: k.data ++ ['"']) ++ ':' :: ' ' :: v.data)) =
      String.mk (('"' :: k.data ++ ['"']) ++ ':' :: ' ' :: v.data) := rfl
  have hsfc : splitFirstColon (lstripSpaces
      (String.mk (('"' :: k.data ++ ['"']) ++ ':' :: ' ' :: v.data))) =
      (String.mk ('"' :: k.data ++ ['"']), String.mk (' ' :: v.data)) := by
    rw [hlst]
    simp only [splitFirstColon]
    rw [splitColonChars_append _ _ hA]
  have hkey0 : pyStrip (String.mk ('"' :: k.data ++ ['"'])) =
      String.mk ('"' :: k.data ++ ['"']) :=
    pyStrip_of_ends '"' k.data '"' (by decide) (by decide)
  have hrem : remOfLine
      (String.mk (('"' :: k.data ++ ['"']) ++ ':' :: ' ' :: v.data)) = v := by
    simp only [remOfLine]
    rw [hsfc]
    show pyStrip (String.mk (' ' :: v.data)) = v
    rw [pyStrip_cons_space, hv1]
  have hbul : isBulletS
      (String.mk (('"' :: k.data ++ ['"']) ++ ':' :: ' ' :: v.data)) = false := rfl
  have hcol : hasColon (lstripSpaces
      (String.mk (('"' :: k.data ++ ['"']) ++ ':' :: ' ' :: v.data))) = true := by
    rw [hlst]
    simp only [hasColon]
    exact contains_colon _ (by simp)
  have henum : (startsQ (remOfLine
      (String.mk (('"' :: k.data ++ ['"']) ++ ':' :: ' ' :: v.data))) '[' &&
      endsQ (remOfLine
      (String.mk (('"' :: k.data ++ ['"']) ++ ':' :: ' ' :: v.data))) ']') =
      false := by
    rw [hrem]; exact hv3
  have hdesc : remOfLine
      (String.mk (('"' :: k.data ++ ['"']) ++ ':' :: ' ' :: v.data)) ≠ "" := by
    rw [hrem]; exact hv2
  constructor
  · have h := parse_properties_single true _ hbul hcol henum hdesc
    have hkeyT : keyOfLine true
        (String.mk (('"' :: k.data ++ ['"']) ++ ':' :: ' ' :: v.data)) = k := by
      simp only [keyOfLine]
      rw [hsfc]
      show pyUnquote (pyStrip (String.mk ('"' :: k.data ++ ['"']))) = k
      rw [hkey0, pyUnquote_quoted '"' k.data (by decide)]
    rw [hkeyT, hrem] at h
    exact h
  · have h := parse_properties_single false _ hbul hcol henum hdesc
    have hkeyF : keyOfLine false
        (String.mk (('"' :: k.data ++ ['"']) ++ ':' :: ' ' :: v.data)) =
        String.mk ('"' :: k.data ++ ['"']) := by
      simp only [keyOfLine]
      rw [hsfc]
      show pyStrip (String.mk ('"' :: k.data ++ ['"'])) = _
      exact hkey0
    rw [hkeyF, hrem] at h
    exact h

theorem claim_C6_amended_witness :
    parse_properties true
        [String.mk (('"' :: "k".data ++ ['"']) ++ ':' :: ' ' :: "v".data)] 0 0 =
      ([("k", SchemaNode.strDesc "v")], 1) ∧
    parse_properties false
        [String.mk (('"' :: "k".data ++ ['"']) ++ ':' :: ' ' :: "v".data)] 0 0 =
      ([(String.mk ('"' :: "k".data ++ ['"']), SchemaNode.strDesc "v")], 1) :=
  claim_C6_amended "k" "v" (by decide) (by decide) (by decide) (by decide)

/-!
## C4: element types of the enum resolution
-/

theorem claim_C4_counterexample :
    resolve_enum "[1]" = [JVal.jNum "1"] ∧
    (JVal.jNum "1").isStr = false ∧
    resolve_enum "[true, null]" = [JVal.jBool true, JVal.jNull] :=
  ⟨rfl, rfl, rfl⟩

/-- C4 (amended): the enum resolution tries strict JSON parsing first and
falls back to the lenient tokenizer.  Only the fallback path guarantees
all-string elements (it maps `jStr` over the scanner's tokens); when the
strict parse succeeds, the parsed array's values are returned as they are,
whatever their types. -/
theorem claim_C4_amended :
    (∀ remainder : String, json_loads_list remainder = none →
       resolve_enum remainder = (custom_parse_list remainder).map JVal.jStr ∧
       ∀ v ∈ resolve_enum remainder, v.isStr = true) ∧
    (∀ (remainder : String) (l : List JVal),
       json_loads_list remainder = some l → resolve_enum remainder = l) := by
  constructor
  · intro r h
    constructor
    · simp [resolve_enum, h]
    · intro v hv
      simp [resolve_enum, h] at hv
      obtain ⟨s, _, rfl⟩ := hv
      rfl
  · intro r l h
    simp [resolve_enum, h]

theorem claim_C4_amended_witness :
    resolve_enum "[fine]" = (custom_parse_list "[fine]").map JVal.jStr ∧
    resolve_enum "[\"a\"]" = [JVal.jStr "a"] :=
  ⟨(claim_C4_amended.1 "[fine]" rfl).1,
   claim_C4_amended.2 "[\"a\"]" [JVal.jStr "a"] rfl⟩

/-!
## C3: strict-JSON failure on bare and single-quoted elements
-/

theorem skipWs_cons (c : Char) (l : List Char) (h : jsonWs c = false) :
    skipWs (c :: l) = c :: l := by
  simp [skipWs, List.dropWhile_cons, h]

theorem matchLit_append_none (lit : List Char) (c : Char)
    (hc : lit.all (fun x => !(x == c)) = true) :
    ∀ (w rest : List Char), matchLit lit w = none →
      matchLit lit (w ++ c :: rest) = none := by
  induction lit with
  | nil => intro w rest hw; simp [matchLit] at hw
  | cons x xs ih =>
    simp only [List.all_cons, Bool.and_eq_true] at hc
    obtain ⟨hx, hxs⟩ := hc
    have hx' : (c == x) = false := by
      have : (x == c) = false := by
        cases hb : (x == c) with
        | false => rfl
        | true => rw [hb] at hx; exact absurd hx (by simp)
      have hne : x ≠ c := beq_eq_false_iff_ne.mp this
      exact beq_eq_false_iff_ne.mpr (fun hh => hne hh.symm)
    intro w rest hw
    cases w with
    | nil =>
      simp only [List.nil_append]
      simp [matchLit, hx']
    | cons y ys =>
      simp only [List.cons_append]
      by_cases hy : (y == x) = true
      · simp only [matchLit, hy, if_pos] at hw ⊢
        exact ih hxs ys rest hw
      · have hy' : (y == x) = false := by
          cases hb : (y == x) with
          | false => rfl
          | true => exact absurd hb hy
        simp [matchLit, hy']

theorem parseNumber_head_fail (a : Char) (l : List Char)
    (h1 : (a == '-') = false) (h2 : a.isDigit = false) :
    parseNumber (a :: l) = none := by
  have h3 : (a == '0') = false := by
    cases hb : (a == '0') with
    | false => rfl
    | true =>
      have : a = '0' := by simpa using hb
      subst this
      simp [Char.isDigit] at h2
  simp [parseNumber, headIs, parseIntPart, h1, h2, h3]

/-- Unpacked character facts of `plainTokenChar`. -/
theorem plainTokenChar_spec (c : Char) (h : plainTokenChar c = true) :
    (c == '"') = false ∧ (c == '\'') = false ∧ (c == ',') = false ∧
    (c == '\\') = false ∧ (c == ':') = false ∧ (c == '[') = false ∧
    (c == ']') = false ∧ (c == '{') = false ∧ pyIsSpace c = false ∧
    jsonWs c = false ∧ 32 ≤ c.toNat := by
  simp only [plainTokenChar, Bool.and_eq_true, Bool.not_eq_true',
    decide_eq_true_eq] at h
  exact ⟨h.1.1.1.1.1.1.1.1.1.1, h.1.1.1.1.1.1.1.1.1.2, h.1.1.1.1.1.1.1.1.2,
    h.1.1.1.1.1.1.1.2, h.1.1.1.1.1.1.2, h.1.1.1.1.1.2, h.1.1.1.1.2,
    h.1.1.1.2, h.1.1.2, h.1.2, h.2⟩

/-- Unpacked facts of `plainWord`: the data is a cons, every character is
plain, the head is not a sign or digit, and every JSON literal match
fails. -/
theorem plainWord_spec (w : String) (h : plainWord w = true) :
    ∃ a as, w.data = a :: as ∧
      w.data.all plainTokenChar = true ∧
      (a == '-') = false ∧ a.isDigit = false ∧
      matchLit ['n', 'u', 'l', 'l'] w.data = none ∧
      matchLit ['t', 'r', 'u', 'e'] w.data = none ∧
      matchLit ['f', 'a', 'l', 's', 'e'] w.data = none ∧
      matchLit ['N', 'a', 'N'] w.data = none ∧
      matchLit ['I', 'n', 'f', 'i', 'n', 'i', 't', 'y'] w.data = none ∧
      matchLit ['-', 'I', 'n', 'f', 'i', 'n', 'i', 't', 'y'] w.data = none := by
  rcases hw : w.data with _ | ⟨a, as⟩
  · rw [plainWord, hw] at h; exact absurd h (by simp)
  · rw [plainWord, hw] at h
    simp only [Bool.and_eq_true, Bool.not_eq_true', Option.isNone_iff_eq_none] at h
    refine ⟨a, as, rfl, ?_, ?_, ?_, ?_, ?_, ?_, ?_, ?_, ?_⟩ <;> tauto

theorem parseJValue_word_comma_fail (w : String) (rest : List Char)
    (hp : plainWord w = true) :
    ∀ f, parseJValue f (w.data ++ ',' :: rest) = none := by
  obtain ⟨a, as, hw, hall, hda, hdd, hnull, htrue, hfalse, hnan, hinf, hninf⟩ :=
    plainWord_spec w hp
  rw [hw] at hall
  simp only [List.all_cons, Bool.and_eq_true] at hall
  obtain ⟨ha, _⟩ := hall
  obtain ⟨hq1, hq2, hq3, hq4, hq5, hq6, hq7, hq8, hq9, hq10, hq11⟩ :=
    plainTokenChar_spec a ha
  intro f
  cases f with
  | zero => rfl
  | succ f =>
    rw [hw, show ((a :: as) ++ ',' :: rest : List Char) =
      a :: (as ++ ',' :: rest) from rfl]
    simp only [parseJValue]
    rw [if_neg (show ¬ headIs (a :: (as ++ ',' :: rest)) '"' = true by
        rw [show headIs (a :: (as ++ ',' :: rest)) '"' = (a == '"') from rfl, hq1]
        exact Bool.false_ne_true),
      if_neg (show ¬ headIs (a :: (as ++ ',' :: rest)) '[' = true by
        rw [show headIs (a :: (as ++ ',' :: rest)) '[' = (a == '[') from rfl, hq6]
        exact Bool.false_ne_true),
      if_neg (show ¬ headIs (a :: (as ++ ',' :: rest)) '{' = true by
        rw [show headIs (a :: (as ++ ',' :: rest)) '{' = (a == '{') from rfl, hq8]
        exact Bool.false_ne_true)]
    have m1 := matchLit_append_none ['n', 'u', 'l', 'l'] ','
      (by decide) w.data rest hnull
    have m2 := matchLit_append_none ['t', 'r', 'u', 'e'] ','
      (by decide) w.data rest htrue
    have m3 := matchLit_append_none ['f', 'a', 'l', 's', 'e'] ','
      (by decide) w.data rest hfalse
    have m4 := matchLit_append_none ['N', 'a', 'N'] ','
      (by decide) w.data rest hnan
    have m5 := matchLit_append_none ['I', 'n', 'f', 'i', 'n', 'i', 't', 'y'] ','
      (by decide) w.data rest hinf
    have m6 := matchLit_append_none
      ['-', 'I', 'n', 'f', 'i', 'n', 'i', 't', 'y'] ','
      (by decide) w.data rest hninf
    rw [hw, List.cons_append] at m1 m2 m3 m4 m5 m6
    have m7 : parseNumber (a :: (as ++ ',' :: rest)) = none :=
      parseNumber_head_fail a _ hda hdd
    simp only [m1, m2, m3, m4, m5, m6, m7]

theorem parseJValue_squote_fail (rest : List Char) :
    ∀ f, parseJValue f ('\'' :: rest) = none := by
  intro f
  cases f with
  | zero => rfl
  | succ f => rfl

theorem parseJValue_bare_arr_fail (w : String) (rest : List Char)
    (hp : plainWord w = true) :
    ∀ f, parseJValue f ('[' :: w.data ++ ',' :: rest) = none := by
  obtain ⟨a, as, hw, hall, _, _, _, _, _, _, _, _⟩ := plainWord_spec w hp
  rw [hw] at hall
  simp only [List.all_cons, Bool.and_eq_true] at hall
  obtain ⟨ha, _⟩ := hall
  obtain ⟨_, _, _, _, _, _, hq7, _, _, hq10, _⟩ := plainTokenChar_spec a ha
  intro f
  cases f with
  | zero => rfl
  | succ f =>
    simp only [parseJValue]
    rw [if_neg (show ¬ headIs ('[' :: w.data ++ ',' :: rest) '"' = true by
        rw [show headIs ('[' :: w.data ++ ',' :: rest) '"' = false from rfl]
        exact Bool.false_ne_true),
      if_pos (show headIs ('[' :: w.data ++ ',' :: rest) '[' = true from rfl)]
    have hr1 : skipWs (('[' :: w.data ++ ',' :: rest).drop 1) =
        w.data ++ ',' :: rest := by
      rw [show (('[' :: w.data ++ ',' :: rest).drop 1 : List Char) =
        w.data ++ ',' :: rest from rfl]
      rw [hw, List.cons_append]
      exact skipWs_cons a (as ++ ',' :: rest) hq10
    rw [hr1]
    have hne : headIs (w.data ++ ',' :: rest) ']' = false := by
      rw [hw, List.cons_append,
        show headIs (a :: (as ++ ',' :: rest)) ']' = (a == ']') from rfl, hq7]
    rw [if_neg (by rw [hne]; exact Bool.false_ne_true)]
    cases f with
    | zero => rfl
    | succ f =>
      simp only [parseJElems]
      rw [parseJValue_word_comma_fail w rest hp f]
      rfl

theorem parseJValue_squote_arr_fail (rest : List Char) :
    ∀ f, parseJValue f ('[' :: '\'' :: rest) = none := by
  intro f
  cases f with
  | zero => rfl
  | succ f =>
    simp only [parseJValue]
    rw [if_neg (show ¬ headIs ('[' :: '\'' :: rest) '"' = true by
        rw [show headIs ('[' :: '\'' :: rest) '"' = false from rfl]
        exact Bool.false_ne_true),
      if_pos (show headIs ('[' :: '\'' :: rest) '[' = true from rfl)]
    rw [show skipWs (('[' :: '\'' :: rest).drop 1) = '\'' :: rest from rfl]
    rw [if_neg (show ¬ headIs ('\'' :: rest) ']' = true by
        rw [show headIs ('\'' :: rest) ']' = false from rfl]
        exact Bool.false_ne_true)]
    cases f with
    | zero => rfl
    | succ f =>
      simp only [parseJElems]
      rw [parseJValue_squote_fail rest f]
      rfl

theorem json_loads_eq_none (s : String)
    (h : ∀ f, parseJValue f (skipWs s.data) = none) :
    json_loads s = none := by
  simp only [json_loads]
  rw [h _]

theorem json_loads_list_none (s : String) (h : json_loads s = none) :
    json_loads_list s = none := by
  simp [json_loads_list, h]

/-!
## C3: strict-JSON success on double-quoted plain words
-/

theorem parseJStringAuxF_word (w : List Char) :
    ∀ (f : Nat) (acc rest : List Char), w.all plainTokenChar = true →
      w.length + 1 ≤ f →
      parseJStringAuxF f (w ++ '"' :: rest) acc =
        some (String.mk (acc.reverse ++ w), rest) := by
  induction w with
  | nil =>
    intro f acc rest _ hf
    obtain ⟨f', rfl⟩ : ∃ f', f = f' + 1 := ⟨f - 1, by omega⟩
    simp only [List.nil_append, parseJStringAuxF]
    simp
  | cons c cs ih =>
    intro f acc rest hall hf
    simp only [List.all_cons, Bool.and_eq_true] at hall
    obtain ⟨hc, hcs⟩ := hall
    obtain ⟨hq1, _, _, hq4, _, _, _, _, _, _, hq11⟩ := plainTokenChar_spec c hc
    obtain ⟨f', rfl⟩ : ∃ f', f = f' + 1 := ⟨f - 1, by omega⟩
    rw [show ((c :: cs) ++ '"' :: rest : List Char) =
      c :: (cs ++ '"' :: rest) from rfl]
    simp only [parseJStringAuxF]
    rw [if_neg (by rw [hq1]; exact Bool.false_ne_true),
      if_neg (by rw [hq4]; exact Bool.false_ne_true),
      if_neg (show ¬ c.toNat < 32 by omega),
      ih f' (c :: acc) rest hcs (by simp only [List.length_cons] at hf ⊢; omega)]
    simp

theorem parseJValue_dquoted (w rest : List Char)
    (h : w.all plainTokenChar = true) (f : Nat) :
    parseJValue (f + 1) ('"' :: (w ++ '"' :: rest)) =
      some (JVal.jStr (String.mk w), rest) := by
  simp only [parseJValue]
  rw [if_pos (show headIs ('"' :: (w ++ '"' :: rest)) '"' = true from rfl)]
  rw [show (('"' :: (w ++ '"' :: rest)).drop 1 : List Char) = w ++ '"' :: rest
    from rfl]
  rw [show parseJStringAux (w ++ '"' :: rest) [] =
    parseJStringAuxF (w ++ '"' :: rest).length (w ++ '"' :: rest) [] from rfl]
  rw [parseJStringAuxF_word w (w ++ '"' :: rest).length [] rest h
    (by simp [List.length_append])]
  simp

theorem parseJElems_last (w3 : List Char) (h3 : w3.all plainTokenChar = true) :
    ∀ f, parseJElems (f + 1 + 1) ('"' :: (w3 ++ '"' :: [']'])) =
      some ([JVal.jStr (String.mk w3)], []) := by
  intro f
  have hv3 := parseJValue_dquoted w3 [']'] h3 f
  simp only [parseJElems, hv3]
  rfl

theorem parseJElems_snd (w2 w3 : List Char)
    (h2 : w2.all plainTokenChar = true) (h3 : w3.all plainTokenChar = true) :
    ∀ f, parseJElems (f + 1 + 1 + 1 + 1)
        ('"' :: (w2 ++ '"' :: ',' :: ' ' :: '"' :: (w3 ++ '"' :: [']']))) =
      some ([JVal.jStr (String.mk w2), JVal.jStr (String.mk w3)], []) := by
  intro f
  have hv2 := parseJValue_dquoted w2 (',' :: ' ' :: '"' :: (w3 ++ '"' :: [']']))
    h2 (f + 1 + 1)
  have hb : skipWs (List.drop 1 (skipWs (',' :: ' ' :: '"' ::
      (w3 ++ ['"', ']'])))) = '"' :: (w3 ++ ['"', ']']) := rfl
  have hv3 : parseJValue (f + 2) ('"' :: (w3 ++ ['"', ']'])) =
      some (JVal.jStr (String.mk w3), [']']) :=
    parseJValue_dquoted w3 [']'] h3 (f + 1)
  simp only [parseJElems, hv2, hb, hv3]
  rfl

theorem parseJElems_all (w1 w2 w3 : List Char)
    (h1 : w1.all plainTokenChar = true) (h2 : w2.all plainTokenChar = true)
    (h3 : w3.all plainTokenChar = true) :
    ∀ f, parseJElems (f + 1 + 1 + 1 + 1 + 1 + 1)
        ('"' :: (w1 ++ '"' :: ',' :: ' ' :: '"' ::
          (w2 ++ '"' :: ',' :: ' ' :: '"' :: (w3 ++ '"' :: [']'])))) =
      some ([JVal.jStr (String.mk w1), JVal.jStr (String.mk w2),
        JVal.jStr (String.mk w3)], []) := by
  intro f
  have hv1 := parseJValue_dquoted w1
    (',' :: ' ' :: '"' :: (w2 ++ '"' :: ',' :: ' ' :: '"' :: (w3 ++ '"' :: [']'])))
    h1 (f + 1 + 1 + 1 + 1)
  have hb1 : skipWs (List.drop 1 (skipWs (',' :: ' ' :: '"' ::
      (w2 ++ '"' :: ',' :: ' ' :: '"' :: (w3 ++ ['"', ']']))))) =
      '"' :: (w2 ++ '"' :: ',' :: ' ' :: '"' :: (w3 ++ ['"', ']'])) := rfl
  have hv2 : parseJValue (f + 4)
      ('"' :: (w2 ++ '"' :: ',' :: ' ' :: '"' :: (w3 ++ ['"', ']']))) =
      some (JVal.jStr (String.mk w2),
        ',' :: ' ' :: '"' :: (w3 ++ ['"', ']'])) :=
    parseJValue_dquoted w2 (',' :: ' ' :: '"' :: (w3 ++ '"' :: [']']))
      h2 (f + 1 + 1 + 1)
  have hb2 : skipWs (List.drop 1 (skipWs (',' :: ' ' :: '"' ::
      (w3 ++ ['"', ']'])))) = '"' :: (w3 ++ ['"', ']']) := rfl
  have hv3 : parseJValue (f + 3) ('"' :: (w3 ++ ['"', ']'])) =
      some (JVal.jStr (String.mk w3), [']']) :=
    parseJValue_dquoted w3 [']'] h3 (f + 1 + 1)
  simp only [parseJElems, hv1, hb1, hv2, hb2, hv3]
  rfl

/-- Strict JSON success: a double-quoted three-element list of plain words
parses to the three strings. -/
theorem json_loads_dquote (w1 w2 w3 : String)
    (h1 : w1.data.all plainTokenChar = true)
    (h2 : w2.data.all plainTokenChar = true)
    (h3 : w3.data.all plainTokenChar = true) :
    json_loads (String.mk ('[' :: '"' :: (w1.data ++ '"' :: ',' :: ' ' :: '"' :: (w2.data ++ '"' :: ',' :: ' ' :: '"' :: (w3.data ++ '"' :: [']']))))) =
      some (JVal.jArr [JVal.jStr w1, JVal.jStr w2, JVal.jStr w3]) := by
  have hlen : ('[' :: '"' :: (w1.data ++ '"' :: ',' :: ' ' :: '"' :: (w2.data ++ '"' :: ',' :: ' ' :: '"' :: (w3.data ++ '"' :: [']'])))).length =
      w1.data.length + w2.data.length + w3.data.length + 12 := by
    simp only [List.length_cons, List.length_append, List.length_nil]
    omega
  obtain ⟨g, hg⟩ : ∃ g, 2 * ('[' :: '"' :: (w1.data ++ '"' :: ',' :: ' ' :: '"' :: (w2.data ++ '"' :: ',' :: ' ' :: '"' :: (w3.data ++ '"' :: [']'])))).length + 2 =
      g + 1 + 1 + 1 + 1 + 1 + 1 + 1 + 1 :=
    ⟨2 * ('[' :: '"' :: (w1.data ++ '"' :: ',' :: ' ' :: '"' :: (w2.data ++ '"' :: ',' :: ' ' :: '"' :: (w3.data ++ '"' :: [']'])))).length - 6, by rw [hlen]; omega⟩
  have hv : parseJValue (g + 1 + 1 + 1 + 1 + 1 + 1 + 1 + 1) ('[' :: '"' :: (w1.data ++ '"' :: ',' :: ' ' :: '"' :: (w2.data ++ '"' :: ',' :: ' ' :: '"' :: (w3.data ++ '"' :: [']'])))) =
      some (JVal.jArr [JVal.jStr (String.mk w1.data),
        JVal.jStr (String.mk w2.data), JVal.jStr (String.mk w3.data)], []) := by
    have he : parseJElems (g + 7) ('"' :: (w1.data ++ '"' :: ',' :: ' ' :: '"' :: (w2.data ++ '"' :: ',' :: ' ' :: '"' :: (w3.data ++ '"' :: [']'])))) =
        some ([JVal.jStr (String.mk w1.data), JVal.jStr (String.mk w2.data),
          JVal.jStr (String.mk w3.data)], []) :=
      parseJElems_all w1.data w2.data w3.data h1 h2 h3 (g + 1)
    have hb : skipWs (List.drop 1 ('[' :: '"' :: (w1.data ++ '"' :: ',' :: ' ' :: '"' :: (w2.data ++ '"' :: ',' :: ' ' :: '"' :: (w3.data ++ '"' :: [']']))))) = '"' :: (w1.data ++ '"' :: ',' :: ' ' :: '"' :: (w2.data ++ '"' :: ',' :: ' ' :: '"' :: (w3.data ++ '"' :: [']']))) := rfl
    simp only [parseJValue, hb, he]
    rfl
  simp only [json_loads]
  rw [show skipWs (String.mk ('[' :: '"' :: (w1.data ++ '"' :: ',' :: ' ' :: '"' :: (w2.data ++ '"' :: ',' :: ' ' :: '"' :: (w3.data ++ '"' :: [']']))))).data = '[' :: '"' :: (w1.data ++ '"' :: ',' :: ' ' :: '"' :: (w2.data ++ '"' :: ',' :: ' ' :: '"' :: (w3.data ++ '"' :: [']']))) from rfl]
  rw [hg, hv]
  rfl

/-!
## C3: the custom scanner on bare and single-quoted elements
-/

theorem cplLoop_plain : ∀ cs : List Char,
    cs.all (fun c => !(c == '"') && !(c == '\'') && !(c == ',') &&
      !(c == '\\')) = true →
    ∀ (rest : List Char) (qc : Char) (cur : String) (toks : List String),
      cplLoop (cs ++ rest) false qc false cur toks =
        cplLoop rest false qc false (String.mk (cur.data ++ cs)) toks := by
  intro cs
  induction cs with
  | nil =>
    intro _ rest qc cur toks
    rw [List.nil_append,
      show String.mk (cur.data ++ []) = cur from by rw [List.append_nil]]
  | cons c cs ih =>
    intro h rest qc cur toks
    simp only [List.all_cons, Bool.and_eq_true] at h
    obtain ⟨⟨⟨⟨hc1, hc2⟩, hc3⟩, hc4⟩, hcs⟩ := h
    have hc1' : (c == '"') = false := by
      cases hb : (c == '"') with
      | false => rfl
      | true => rw [hb] at hc1; exact absurd hc1 (by simp)
    have hc2' : (c == '\'') = false := by
      cases hb : (c == '\'') with
      | false => rfl
      | true => rw [hb] at hc2; exact absurd hc2 (by simp)
    have hc3' : (c == ',') = false := by
      cases hb : (c == ',') with
      | false => rfl
      | true => rw [hb] at hc3; exact absurd hc3 (by simp)
    have hc4' : (c == '\\') = false := by
      cases hb : (c == '\\') with
      | false => rfl
      | true => rw [hb] at hc4; exact absurd hc4 (by simp)
    have hstep : cplLoop (c :: (cs ++ rest)) false qc false cur toks =
        cplLoop (cs ++ rest) false qc false (cur.push c) toks := by
      simp [cplLoop, hc1', hc2', hc3', hc4']
    rw [show ((c :: cs) ++ rest : List Char) = c :: (cs ++ rest) from rfl,
      hstep, ih hcs rest qc (cur.push c) toks, string_data_push,
      show ((cur.data ++ [c]) ++ cs : List Char) = cur.data ++ c :: cs from by simp]

theorem cplLoop_comma (rest : List Char) (qc : Char) (cur : String)
    (toks : List String) :
    cplLoop (',' :: rest) false qc false cur toks =
      cplLoop rest false qc false "" (toks ++ [pyStrip cur]) := rfl

theorem cplLoop_squote_open (rest : List Char) (qc : Char) (cur : String)
    (toks : List String) :
    cplLoop ('\'' :: rest) false qc false cur toks =
      cplLoop rest true '\'' false (cur.push '\'') toks := rfl

theorem cplLoop_squote_close : ∀ cs : List Char,
    cs.all (fun c => !(c == '\'') && !(c == '\\')) = true →
    ∀ (rest : List Char) (cur : String) (toks : List String),
      cplLoop (cs ++ '\'' :: rest) true '\'' false cur toks =
        cplLoop rest false '\'' false
          (String.mk (cur.data ++ cs ++ ['\''])) toks := by
  intro cs
  induction cs with
  | nil =>
    intro _ rest cur toks
    rw [List.nil_append,
      show cplLoop ('\'' :: rest) true '\'' false cur toks =
        cplLoop rest false '\'' false (cur.push '\'') toks from rfl,
      show String.mk (cur.data ++ [] ++ ['\'']) = cur.push '\'' from by
        rw [List.append_nil]; rfl]
  | cons c cs ih =>
    intro h rest cur toks
    simp only [List.all_cons, Bool.and_eq_true] at h
    obtain ⟨⟨hc1, hc2⟩, hcs⟩ := h
    have hc1' : (c == '\'') = false := by
      cases hb : (c == '\'') with
      | false => rfl
      | true => rw [hb] at hc1; exact absurd hc1 (by simp)
    have hc2' : (c == '\\') = false := by
      cases hb : (c == '\\') with
      | false => rfl
      | true => rw [hb] at hc2; exact absurd hc2 (by simp)
    have hbne : (c != '\'') = true := by simp [bne, hc1']
    have hstep : cplLoop (c :: (cs ++ '\'' :: rest)) true '\'' false cur toks =
        cplLoop (cs ++ '\'' :: rest) (c != '\'') '\'' false (cur.push c) toks := by
      simp [cplLoop, hc2']
    rw [show ((c :: cs) ++ '\'' :: rest : List Char) =
        c :: (cs ++ '\'' :: rest) from rfl,
      hstep, hbne, ih hcs rest (cur.push c) toks, string_data_push,
      show ((cur.data ++ [c]) ++ cs : List Char) = cur.data ++ c :: cs from by simp]

theorem cplLoop_nil_ne (qc : Char) (cur : String) (toks : List String)
    (h : cur ≠ "") : cplLoop [] false qc false cur toks = toks ++ [pyStrip cur] := by
  simp [cplLoop, h]

/-- `strip()` of a plain word is the word itself. -/
theorem pyStrip_word (w : String) (h : plainWord w = true) : pyStrip w = w := by
  obtain ⟨a, as, hw, hall, _, _, _, _, _, _, _, _⟩ := plainWord_spec w h
  have hwm : w = String.mk (a :: as) := by rw [← hw]
  rcases List.eq_nil_or_concat w.data with h0 | ⟨t, d, htd⟩
  · rw [hw] at h0; exact absurd h0 (by simp)
  all_goals rw [List.concat_eq_append] at htd
  · have hha : pyIsSpace a = false := by
      have hmem : a ∈ w.data := by rw [hw]; exact List.mem_cons_self a as
      have := List.all_eq_true.mp hall a hmem
      exact (plainTokenChar_spec a this).2.2.2.2.2.2.2.2.1
    have hhd : pyIsSpace d = false := by
      have hmem : d ∈ w.data := by rw [htd]; simp
      have := List.all_eq_true.mp hall d hmem
      exact (plainTokenChar_spec d this).2.2.2.2.2.2.2.2.1
    have hl : pyLstrip w = w := by
      rw [hwm]
      exact pyLstrip_of_head a as hha
    have hr : pyRstrip w = w := by
      rw [show w = String.mk (t ++ [d]) from by rw [← htd]]
      exact pyRstrip_concat t d hhd
    simp only [pyStrip, hl, hr]

/-- Removing surrounding quotes leaves a plain word alone. -/
theorem pyUnquote_word (w : String) (h : plainWord w = true) :
    pyUnquote w = w := by
  obtain ⟨a, as, hw, hall, _, _, _, _, _, _, _, _⟩ := plainWord_spec w h
  have ha : plainTokenChar a = true := by
    have hmem : a ∈ w.data := by rw [hw]; exact List.mem_cons_self a as
    exact List.all_eq_true.mp hall a hmem
  obtain ⟨hq1, hq2, _, _, _, _, _, _, _, _, _⟩ := plainTokenChar_spec a ha
  rw [show w = String.mk (a :: as) from by rw [← hw]]
  exact pyUnquote_of_head a as hq1 hq2

/-- `strip()` leaves a list alone when it decomposes into a non-space head
chunk, a middle, and a tail ending in a non-space character. -/
theorem pyStrip_chunks (a : Char) (as mid t : List Char) (d : Char)
    (hha : pyIsSpace a = false) (hd : pyIsSpace d = false) :
    pyStrip (String.mk ((a :: as) ++ mid ++ (t ++ [d]))) =
      String.mk ((a :: as) ++ mid ++ (t ++ [d])) := by
  simp only [pyStrip]
  have hl : pyLstrip (String.mk ((a :: as) ++ mid ++ (t ++ [d]))) =
      String.mk ((a :: as) ++ mid ++ (t ++ [d])) := by
    have h2 := pyLstrip_of_head a (as ++ mid ++ (t ++ [d])) hha
    rw [show ((a :: as) ++ mid ++ (t ++ [d]) : List Char) =
      a :: (as ++ mid ++ (t ++ [d])) from by simp]
    exact h2
  have hr : pyRstrip (String.mk ((a :: as) ++ mid ++ (t ++ [d]))) =
      String.mk ((a :: as) ++ mid ++ (t ++ [d])) := by
    have h3 := pyRstrip_concat ((a :: as) ++ mid ++ t) d hd
    rw [show ((a :: as) ++ mid ++ (t ++ [d]) : List Char) =
      ((a :: as) ++ mid ++ t) ++ [d] from by simp]
    exact h3
  rw [hl, hr]

theorem plainWord_all (w : String) (h : plainWord w = true) :
    w.data.all plainTokenChar = true := by
  obtain ⟨_, _, _, hall, _, _, _, _, _, _, _, _⟩ := plainWord_spec w h
  exact hall

theorem plain_scan (l : List Char) (h : l.all plainTokenChar = true) :
    l.all (fun c => !(c == '"') && !(c == '\'') && !(c == ',') &&
      !(c == '\\')) = true := by
  rw [List.all_eq_true] at h ⊢
  intro c hc
  obtain ⟨q1, q2, q3, q4, _⟩ := plainTokenChar_spec c (h c hc)
  simp [q1, q2, q3, q4]

theorem plain_quote_scan (l : List Char) (h : l.all plainTokenChar = true) :
    l.all (fun c => !(c == '\'') && !(c == '\\')) = true := by
  rw [List.all_eq_true] at h ⊢
  intro c hc
  obtain ⟨_, q2, _, q4, _⟩ := plainTokenChar_spec c (h c hc)
  simp [q2, q4]

theorem word_no_colon (w : String) (h : plainWord w = true) : ':' ∉ w.data := by
  intro hm
  have := List.all_eq_true.mp (plainWord_all w h) ':' hm
  have h2 := (plainTokenChar_spec ':' this).2.2.2.2.1
  simp at h2

theorem word_ne_nil (w : String) (h : plainWord w = true) : w.data ≠ [] := by
  obtain ⟨a, as, hw, _, _, _, _, _, _, _, _, _⟩ := plainWord_spec w h
  rw [hw]
  simp

/-- The enum pipeline on a bare three-word list: strict JSON fails, the
scanner splits on the commas, and the trimmed unquoted tokens are the
words. -/
theorem resolve_enum_bare (w1 w2 w3 : String)
    (h1 : plainWord w1 = true) (h2 : plainWord w2 = true)
    (h3 : plainWord w3 = true) :
    resolve_enum (String.mk (('[' :: (w1.data ++ ',' :: ' ' :: w2.data ++
        ',' :: ' ' :: w3.data)) ++ [']'])) =
      [JVal.jStr w1, JVal.jStr w2, JVal.jStr w3] := by
  obtain ⟨a1, as1, hw1, hall1, _, _, _, _, _, _, _, _⟩ := plainWord_spec w1 h1
  have hjf : json_loads (String.mk (('[' :: (w1.data ++ ',' :: ' ' :: w2.data ++
      ',' :: ' ' :: w3.data)) ++ [']'])) = none := by
    rw [show String.mk (('[' :: (w1.data ++ ',' :: ' ' :: w2.data ++
        ',' :: ' ' :: w3.data)) ++ [']']) =
      String.mk ('[' :: w1.data ++ ',' :: (' ' :: (w2.data ++
        ',' :: ' ' :: (w3.data ++ [']'])))) from congrArg String.mk (by simp)]
    exact json_loads_eq_none _ (fun f => parseJValue_bare_arr_fail w1 _ h1 f)
  rw [resolve_enum, json_loads_list_none _ hjf]
  simp only [custom_parse_list]
  have hint : pyInterior (String.mk (('[' :: (w1.data ++ ',' :: ' ' :: w2.data ++
      ',' :: ' ' :: w3.data)) ++ [']'])) =
      String.mk (w1.data ++ ',' :: ' ' :: w2.data ++ ',' :: ' ' :: w3.data) := by
    simp only [pyInterior]
    rw [show (String.mk (('[' :: (w1.data ++ ',' :: ' ' :: w2.data ++
        ',' :: ' ' :: w3.data)) ++ [']'])).data.drop 1 =
      (w1.data ++ ',' :: ' ' :: w2.data ++ ',' :: ' ' :: w3.data) ++ [']']
      from rfl, List.dropLast_concat]
  rcases List.eq_nil_or_concat w3.data with h0 | ⟨t3, d3, htd3⟩
  · exact absurd h0 (word_ne_nil w3 h3)
  rw [List.concat_eq_append] at htd3
  have hd3 : pyIsSpace d3 = false := by
    have hmem : d3 ∈ w3.data := by rw [htd3]; simp
    have := List.all_eq_true.mp (plainWord_all w3 h3) d3 hmem
    exact (plainTokenChar_spec d3 this).2.2.2.2.2.2.2.2.1
  have ha1 : pyIsSpace a1 = false := by
    have hmem : a1 ∈ w1.data := by rw [hw1]; exact List.mem_cons_self a1 as1
    have := List.all_eq_true.mp hall1 a1 hmem
    exact (plainTokenChar_spec a1 this).2.2.2.2.2.2.2.2.1
  have hstrip : pyStrip (String.mk (w1.data ++ ',' :: ' ' :: w2.data ++
      ',' :: ' ' :: w3.data)) = String.mk (w1.data ++ ',' :: ' ' :: w2.data ++
      ',' :: ' ' :: w3.data) := by
    rw [show (w1.data ++ ',' :: ' ' :: w2.data ++ ',' :: ' ' :: w3.data :
        List Char) =
      (a1 :: as1) ++ (',' :: ' ' :: w2.data) ++ ((',' :: ' ' :: t3) ++ [d3])
      from by rw [hw1, htd3]; simp]
    exact pyStrip_chunks a1 as1 (',' :: ' ' :: w2.data) (',' :: ' ' :: t3) d3
      ha1 hd3
  rw [hint, hstrip]
  rw [if_neg (show ¬ String.mk (w1.data ++ ',' :: ' ' :: w2.data ++
      ',' :: ' ' :: w3.data) = "" by
    intro hh
    have := congrArg String.data hh
    simp [hw1] at this)]
  rw [show (String.mk (w1.data ++ ',' :: ' ' :: w2.data ++
      ',' :: ' ' :: w3.data)).data =
    w1.data ++ ',' :: ' ' :: w2.data ++ ',' :: ' ' :: w3.data from rfl]
  rw [show (w1.data ++ ',' :: ' ' :: w2.data ++ ',' :: ' ' :: w3.data :
      List Char) =
    w1.data ++ (',' :: ((' ' :: w2.data) ++ (',' :: ((' ' :: w3.data) ++ []))))
    from by simp]
  rw [cplLoop_plain w1.data (plain_scan _ (plainWord_all w1 h1)) _ ' ' "" []]
  rw [cplLoop_comma]
  rw [cplLoop_plain (' ' :: w2.data)
    (by rw [List.all_cons, plain_scan _ (plainWord_all w2 h2)]; decide) _ ' ' "" _]
  rw [cplLoop_comma]
  rw [cplLoop_plain (' ' :: w3.data)
    (by rw [List.all_cons, plain_scan _ (plainWord_all w3 h3)]; decide) [] ' ' "" _]
  rw [cplLoop_nil_ne ' ' _ _ (by
    intro hh
    have := congrArg String.data hh
    simp at this)]
  have hu1 : pyUnquote (pyStrip (String.mk w1.data)) = w1 := by
    have hp : pyStrip (String.mk w1.data) = w1 := pyStrip_word w1 h1
    rw [hp]; exact pyUnquote_word w1 h1
  have hu2 : pyUnquote (pyStrip (String.mk (' ' :: w2.data))) = w2 := by
    have hp : pyStrip (String.mk (' ' :: w2.data)) = pyStrip w2 :=
      pyStrip_cons_space w2
    rw [hp, pyStrip_word w2 h2]; exact pyUnquote_word w2 h2
  have hu3 : pyUnquote (pyStrip (String.mk (' ' :: w3.data))) = w3 := by
    have hp : pyStrip (String.mk (' ' :: w3.data)) = pyStrip w3 :=
      pyStrip_cons_space w3
    rw [hp, pyStrip_word w3 h3]; exact pyUnquote_word w3 h3
  simp [hu1, hu2, hu3]

/-- The enum pipeline on a single-quoted three-word list: strict JSON
fails on the quote character, the scanner keeps each quoted token whole,
and the final unquoting strips the quotes. -/
theorem resolve_enum_squote (w1 w2 w3 : String)
    (h1 : plainWord w1 = true) (h2 : plainWord w2 = true)
    (h3 : plainWord w3 = true) :
    resolve_enum (String.mk (('[' :: (('\'' :: w1.data ++ ['\'']) ++
        ',' :: ' ' :: ('\'' :: w2.data ++ ['\'']) ++
        ',' :: ' ' :: ('\'' :: w3.data ++ ['\'']))) ++ [']'])) =
      [JVal.jStr w1, JVal.jStr w2, JVal.jStr w3] := by
  have hjf : json_loads (String.mk (('[' :: (('\'' :: w1.data ++ ['\'']) ++
      ',' :: ' ' :: ('\'' :: w2.data ++ ['\'']) ++
      ',' :: ' ' :: ('\'' :: w3.data ++ ['\'']))) ++ [']'])) = none := by
    rw [show String.mk (('[' :: (('\'' :: w1.data ++ ['\'']) ++
        ',' :: ' ' :: ('\'' :: w2.data ++ ['\'']) ++
        ',' :: ' ' :: ('\'' :: w3.data ++ ['\'']))) ++ [']']) =
      String.mk ('[' :: '\'' :: (w1.data ++ '\'' :: ',' :: ' ' :: '\'' ::
        (w2.data ++ '\'' :: ',' :: ' ' :: '\'' :: (w3.data ++ '\'' :: [']']))))
      from congrArg String.mk (by simp)]
    exact json_loads_eq_none _ (fun f => parseJValue_squote_arr_fail _ f)
  rw [resolve_enum, json_loads_list_none _ hjf]
  simp only [custom_parse_list]
  have hint : pyInterior (String.mk (('[' :: (('\'' :: w1.data ++ ['\'']) ++
      ',' :: ' ' :: ('\'' :: w2.data ++ ['\'']) ++
      ',' :: ' ' :: ('\'' :: w3.data ++ ['\'']))) ++ [']'])) =
      String.mk (('\'' :: w1.data ++ ['\'']) ++
        ',' :: ' ' :: ('\'' :: w2.data ++ ['\'']) ++
        ',' :: ' ' :: ('\'' :: w3.data ++ ['\''])) := by
    simp only [pyInterior]
    rw [show (String.mk (('[' :: (('\'' :: w1.data ++ ['\'']) ++
        ',' :: ' ' :: ('\'' :: w2.data ++ ['\'']) ++
        ',' :: ' ' :: ('\'' :: w3.data ++ ['\'']))) ++ [']'])).data.drop 1 =
      (('\'' :: w1.data ++ ['\'']) ++
        ',' :: ' ' :: ('\'' :: w2.data ++ ['\'']) ++
        ',' :: ' ' :: ('\'' :: w3.data ++ ['\''])) ++ [']'] from rfl,
      List.dropLast_concat]
  have hstrip : pyStrip (String.mk (('\'' :: w1.data ++ ['\'']) ++
      ',' :: ' ' :: ('\'' :: w2.data ++ ['\'']) ++
      ',' :: ' ' :: ('\'' :: w3.data ++ ['\'']))) =
      String.mk (('\'' :: w1.data ++ ['\'']) ++
        ',' :: ' ' :: ('\'' :: w2.data ++ ['\'']) ++
        ',' :: ' ' :: ('\'' :: w3.data ++ ['\''])) := by
    rw [show ((('\'' :: w1.data ++ ['\'']) ++
        ',' :: ' ' :: ('\'' :: w2.data ++ ['\'']) ++
        ',' :: ' ' :: ('\'' :: w3.data ++ ['\''])) : List Char) =
      ('\'' :: (w1.data ++ ['\''])) ++
        (',' :: ' ' :: ('\'' :: w2.data ++ ['\''])) ++
        ((',' :: ' ' :: ('\'' :: w3.data)) ++ ['\'']) from by simp]
    exact pyStrip_chunks '\'' (w1.data ++ ['\''])
      (',' :: ' ' :: ('\'' :: w2.data ++ ['\'']))
      (',' :: ' ' :: ('\'' :: w3.data)) '\'' (by decide) (by decide)
  rw [hint, hstrip]
  rw [if_neg (show ¬ String.mk (('\'' :: w1.data ++ ['\'']) ++
      ',' :: ' ' :: ('\'' :: w2.data ++ ['\'']) ++
      ',' :: ' ' :: ('\'' :: w3.data ++ ['\''])) = "" by
    intro hh
    have := congrArg String.data hh
    simp at this)]
  rw [show (String.mk (('\'' :: w1.data ++ ['\'']) ++
      ',' :: ' ' :: ('\'' :: w2.data ++ ['\'']) ++
      ',' :: ' ' :: ('\'' :: w3.data ++ ['\'']))).data =
    ('\'' :: w1.data ++ ['\'']) ++
      ',' :: ' ' :: ('\'' :: w2.data ++ ['\'']) ++
      ',' :: ' ' :: ('\'' :: w3.data ++ ['\'']) from rfl]
  rw [show ((('\'' :: w1.data ++ ['\'']) ++
      ',' :: ' ' :: ('\'' :: w2.data ++ ['\'']) ++
      ',' :: ' ' :: ('\'' :: w3.data ++ ['\''])) : List Char) =
    '\'' :: (w1.data ++ '\'' :: (',' :: ([' '] ++ ('\'' :: (w2.data ++ '\'' ::
      (',' :: ([' '] ++ ('\'' :: (w3.data ++ '\'' :: [])))))))))
    from by simp]
  rw [cplLoop_squote_open]
  rw [cplLoop_squote_close w1.data (plain_quote_scan _ (plainWord_all w1 h1))]
  rw [cplLoop_comma]
  rw [cplLoop_plain [' '] (by decide)]
  rw [cplLoop_squote_open]
  rw [cplLoop_squote_close w2.data (plain_quote_scan _ (plainWord_all w2 h2))]
  rw [cplLoop_comma]
  rw [cplLoop_plain [' '] (by decide)]
  rw [cplLoop_squote_open]
  rw [cplLoop_squote_close w3.data (plain_quote_scan _ (plainWord_all w3 h3))]
  rw [cplLoop_nil_ne '\'' _ _ (by
    intro hh
    have := congrArg String.data hh
    simp at this)]
  have hu1 : pyUnquote (pyStrip (String.mk ('\'' :: (w1.data ++ ['\''])))) = w1 := by
    rw [show pyStrip (String.mk ('\'' :: (w1.data ++ ['\'']))) =
      pyStrip (String.mk ('\'' :: w1.data ++ ['\''])) from rfl]
    rw [pyStrip_of_ends '\'' w1.data '\'' (by decide) (by decide),
      pyUnquote_quoted '\'' w1.data (by decide)]
  have hu2 : pyUnquote (pyStrip (String.mk
      (' ' :: '\'' :: (w2.data ++ ['\''])))) = w2 := by
    rw [show pyStrip (String.mk (' ' :: '\'' :: (w2.data ++ ['\'']))) =
      pyStrip (String.mk ('\'' :: w2.data ++ ['\''])) from
      pyStrip_cons_space (String.mk ('\'' :: w2.data ++ ['\'']))]
    rw [pyStrip_of_ends '\'' w2.data '\'' (by decide) (by decide),
      pyUnquote_quoted '\'' w2.data (by decide)]
  have hu3 : pyUnquote (pyStrip (String.mk
      (' ' :: '\'' :: (w3.data ++ ['\''])))) = w3 := by
    rw [show pyStrip (String.mk (' ' :: '\'' :: (w3.data ++ ['\'']))) =
      pyStrip (String.mk ('\'' :: w3.data ++ ['\''])) from
      pyStrip_cons_space (String.mk ('\'' :: w3.data ++ ['\'']))]
    rw [pyStrip_of_ends '\'' w3.data '\'' (by decide) (by decide),
      pyUnquote_quoted '\'' w3.data (by decide)]
  simp [hu1, hu2, hu3]

/-- The enum pipeline on a double-quoted three-word list: strict JSON
succeeds and returns the three parsed strings directly. -/
theorem resolve_enum_dquote (w1 w2 w3 : String)
    (h1 : plainWord w1 = true) (h2 : plainWord w2 = true)
    (h3 : plainWord w3 = true) :
    resolve_enum (String.mk (('[' :: (('"' :: w1.data ++ ['"']) ++
        ',' :: ' ' :: ('"' :: w2.data ++ ['"']) ++
        ',' :: ' ' :: ('"' :: w3.data ++ ['"']))) ++ [']'])) =
      [JVal.jStr w1, JVal.jStr w2, JVal.jStr w3] := by
  have hj : json_loads (String.mk (('[' :: (('"' :: w1.data ++ ['"']) ++
      ',' :: ' ' :: ('"' :: w2.data ++ ['"']) ++
      ',' :: ' ' :: ('"' :: w3.data ++ ['"']))) ++ [']'])) =
      some (JVal.jArr [JVal.jStr w1, JVal.jStr w2, JVal.jStr w3]) := by
    rw [show String.mk (('[' :: (('"' :: w1.data ++ ['"']) ++
        ',' :: ' ' :: ('"' :: w2.data ++ ['"']) ++
        ',' :: ' ' :: ('"' :: w3.data ++ ['"']))) ++ [']']) =
      String.mk ('[' :: '"' :: (w1.data ++ '"' :: ',' :: ' ' :: '"' ::
        (w2.data ++ '"' :: ',' :: ' ' :: '"' :: (w3.data ++ '"' :: [']']))))
      from congrArg String.mk (by simp)]
    exact json_loads_dquote w1 w2 w3 (plainWord_all w1 h1)
      (plainWord_all w2 h2) (plainWord_all w3 h3)
  rw [resolve_enum, show json_loads_list (String.mk (('[' ::
      (('"' :: w1.data ++ ['"']) ++
        ',' :: ' ' :: ('"' :: w2.data ++ ['"']) ++
        ',' :: ' ' :: ('"' :: w3.data ++ ['"']))) ++ [']'])) =
    some [JVal.jStr w1, JVal.jStr w2, JVal.jStr w3] from by
      rw [json_loads_list, hj]]

/-- A one-line property list `k: R` with a plain-word key and a bracketed
remainder records the key (under both copies, since a plain word has no
quotes to strip) with the enum resolution of the remainder. -/
theorem parse_properties_plain_key_line (strip : Bool) (k : String)
    (R : List Char)
    (hk : plainWord k = true)
    (hR1 : pyStrip (String.mk (' ' :: R)) = String.mk R)
    (hR3 : startsQ (String.mk R) '[' = true)
    (hR4 : endsQ (String.mk R) ']' = true) :
    parse_properties strip [String.mk (k.data ++ ':' :: ' ' :: R)] 0 0 =
      ([(k, SchemaNode.strEnum (resolve_enum (String.mk R)))], 1) := by
  obtain ⟨a, as, hw, hall, hdash, _, _, _, _, _, _, _⟩ := plainWord_spec k hk
  have ha := List.all_eq_true.mp hall a (by rw [hw]; exact List.mem_cons_self a as)
  obtain ⟨q1, q2, _, _, _, _, _, _, q9, _, _⟩ := plainTokenChar_spec a ha
  have hasp : (a == ' ') = false := by
    cases hb : (a == ' ') with
    | false => rfl
    | true =>
      have : a = ' ' := by simpa using hb
      subst this
      simp [pyIsSpace] at q9
  have hlst : lstripSpaces (String.mk (k.data ++ ':' :: ' ' :: R)) =
      String.mk (k.data ++ ':' :: ' ' :: R) := by
    rw [show (k.data ++ ':' :: ' ' :: R : List Char) =
      a :: (as ++ ':' :: ' ' :: R) from by rw [hw]; simp]
    exact lstripSpaces_of_head a (as ++ ':' :: ' ' :: R) hasp
  have hcol : hasColon (lstripSpaces (String.mk (k.data ++ ':' :: ' ' :: R))) =
      true := by
    rw [hlst]
    simp only [hasColon]
    exact contains_colon _ (by simp)
  have hbul : isBulletS (String.mk (k.data ++ ':' :: ' ' :: R)) = false := by
    simp only [isBulletS]
    rw [hlst]
    rw [show startsQ (String.mk (k.data ++ ':' :: ' ' :: R)) '-' = (a == '-')
      from by
        rw [show (k.data ++ ':' :: ' ' :: R : List Char) =
          a :: (as ++ ':' :: ' ' :: R) from by rw [hw]; simp]
        rfl]
    exact hdash
  have hsfc : splitFirstColon (lstripSpaces
      (String.mk (k.data ++ ':' :: ' ' :: R))) =
      (String.mk k.data, String.mk (' ' :: R)) := by
    rw [hlst]
    simp only [splitFirstColon]
    rw [splitColonChars_append k.data (' ' :: R) (word_no_colon k hk)]
  have hrem : remOfLine (String.mk (k.data ++ ':' :: ' ' :: R)) =
      String.mk R := by
    simp only [remOfLine]
    rw [hsfc]
    exact hR1
  have henum : (startsQ (remOfLine (String.mk (k.data ++ ':' :: ' ' :: R))) '[' &&
      endsQ (remOfLine (String.mk (k.data ++ ':' :: ' ' :: R))) ']') = true := by
    rw [hrem, hR3, hR4]
    rfl
  have hkey : keyOfLine strip (String.mk (k.data ++ ':' :: ' ' :: R)) = k := by
    simp only [keyOfLine]
    rw [hsfc]
    have hk0 : pyStrip (String.mk k.data) = k := pyStrip_word k hk
    have hq : pyUnquote k = k := pyUnquote_word k hk
    cases strip <;> simp [hk0, hq]
  have h := parse_properties_single_enum strip _ hbul hcol henum
  rw [hkey, hrem] at h
  exact h

theorem claim_C3_counterexample :
    parse_properties true ["k: [1, 2, 3]"] 0 0 =
      ([("k", SchemaNode.strEnum
        [JVal.jNum "1", JVal.jNum "2", JVal.jNum "3"])], 1) ∧
    parse_properties true ["k: ['1', '2', '3']"] 0 0 =
      ([("k", SchemaNode.strEnum
        [JVal.jStr "1", JVal.jStr "2", JVal.jStr "3"])], 1) ∧
    SchemaNode.strEnum [JVal.jNum "1", JVal.jNum "2", JVal.jNum "3"] ≠
      SchemaNode.strEnum [JVal.jStr "1", JVal.jStr "2", JVal.jStr "3"] :=
  ⟨rfl, rfl, by simp⟩

set_option maxHeartbeats 4000000 in
/-- C3 (amended): for a `key: [a, b, c]` property line the node is a string
leaf with an enum listing the elements in input order, and for plain bare
words the result is the same across bare, single-quoted and double-quoted
element spellings (each giving the three strings); the whole input
`"::::\nweather: [fine, cloud, rain]\n"` compiles to the claimed schema.
(The sameness fails for non-word elements such as numbers, see the
counterexample.) -/
theorem claim_C3_amended :
    extract_response_schema true "::::\nweather: [fine, cloud, rain]\n" =
      some (SchemaNode.objNode [("weather", SchemaNode.strEnum
        [JVal.jStr "fine", JVal.jStr "cloud", JVal.jStr "rain"])]) ∧
    (∀ (strip : Bool) (k w1 w2 w3 : String),
      plainWord k = true → plainWord w1 = true → plainWord w2 = true →
      plainWord w3 = true →
      parse_properties strip [String.mk (k.data ++ ':' :: ' ' ::
          (('[' :: (w1.data ++ ',' :: ' ' :: w2.data ++ ',' :: ' ' :: w3.data))
            ++ [']']))] 0 0 =
        ([(k, SchemaNode.strEnum
          [JVal.jStr w1, JVal.jStr w2, JVal.jStr w3])], 1) ∧
      parse_properties strip [String.mk (k.data ++ ':' :: ' ' ::
          (('[' :: (('\'' :: w1.data ++ ['\'']) ++
            ',' :: ' ' :: ('\'' :: w2.data ++ ['\'']) ++
            ',' :: ' ' :: ('\'' :: w3.data ++ ['\'']))) ++ [']']))] 0 0 =
        ([(k, SchemaNode.strEnum
          [JVal.jStr w1, JVal.jStr w2, JVal.jStr w3])], 1) ∧
      parse_properties strip [String.mk (k.data ++ ':' :: ' ' ::
          (('[' :: (('"' :: w1.data ++ ['"']) ++
            ',' :: ' ' :: ('"' :: w2.data ++ ['"']) ++
            ',' :: ' ' :: ('"' :: w3.data ++ ['"']))) ++ [']']))] 0 0 =
        ([(k, SchemaNode.strEnum
          [JVal.jStr w1, JVal.jStr w2, JVal.jStr w3])], 1)) := by
  constructor
  · rfl
  · intro strip k w1 w2 w3 hk h1 h2 h3
    refine ⟨?_, ?_, ?_⟩
    · have hline := parse_properties_plain_key_line strip k
        (('[' :: (w1.data ++ ',' :: ' ' :: w2.data ++ ',' :: ' ' :: w3.data))
          ++ [']']) hk
        (by
          rw [show pyStrip (String.mk (' ' :: (('[' :: (w1.data ++
              ',' :: ' ' :: w2.data ++ ',' :: ' ' :: w3.data)) ++ [']']))) =
            pyStrip (String.mk (('[' :: (w1.data ++ ',' :: ' ' :: w2.data ++
              ',' :: ' ' :: w3.data)) ++ [']'])) from
            pyStrip_cons_space (String.mk (('[' :: (w1.data ++
              ',' :: ' ' :: w2.data ++ ',' :: ' ' :: w3.data)) ++ [']']))]
          exact pyStrip_of_ends '[' (w1.data ++ ',' :: ' ' :: w2.data ++
            ',' :: ' ' :: w3.data) ']' (by decide) (by decide))
        rfl
        (by rw [endsQ_concat]; rfl)
      rw [resolve_enum_bare w1 w2 w3 h1 h2 h3] at hline
      exact hline
    · have hline := parse_properties_plain_key_line strip k
        (('[' :: (('\'' :: w1.data ++ ['\'']) ++
          ',' :: ' ' :: ('\'' :: w2.data ++ ['\'']) ++
          ',' :: ' ' :: ('\'' :: w3.data ++ ['\'']))) ++ [']']) hk
        (by
          rw [show pyStrip (String.mk (' ' :: (('[' :: (('\'' :: w1.data ++
              ['\'']) ++ ',' :: ' ' :: ('\'' :: w2.data ++ ['\'']) ++
              ',' :: ' ' :: ('\'' :: w3.data ++ ['\'']))) ++ [']']))) =
            pyStrip (String.mk (('[' :: (('\'' :: w1.data ++ ['\'']) ++
              ',' :: ' ' :: ('\'' :: w2.data ++ ['\'']) ++
              ',' :: ' ' :: ('\'' :: w3.data ++ ['\'']))) ++ [']'])) from
            pyStrip_cons_space (String.mk (('[' :: (('\'' :: w1.data ++
              ['\'']) ++ ',' :: ' ' :: ('\'' :: w2.data ++ ['\'']) ++
              ',' :: ' ' :: ('\'' :: w3.data ++ ['\'']))) ++ [']']))]
          exact pyStrip_of_ends '[' (('\'' :: w1.data ++ ['\'']) ++
            ',' :: ' ' :: ('\'' :: w2.data ++ ['\'']) ++
            ',' :: ' ' :: ('\'' :: w3.data ++ ['\''])) ']'
            (by decide) (by decide))
        rfl
        (by rw [endsQ_concat]; rfl)
      rw [resolve_enum_squote w1 w2 w3 h1 h2 h3] at hline
      exact hline
    · have hline := parse_properties_plain_key_line strip k
        (('[' :: (('"' :: w1.data ++ ['"']) ++
          ',' :: ' ' :: ('"' :: w2.data ++ ['"']) ++
          ',' :: ' ' :: ('"' :: w3.data ++ ['"']))) ++ [']']) hk
        (by
          rw [show pyStrip (String.mk (' ' :: (('[' :: (('"' :: w1.data ++
              ['"']) ++ ',' :: ' ' :: ('"' :: w2.data ++ ['"']) ++
              ',' :: ' ' :: ('"' :: w3.data ++ ['"']))) ++ [']']))) =
            pyStrip (String.mk (('[' :: (('"' :: w1.data ++ ['"']) ++
              ',' :: ' ' :: ('"' :: w2.data ++ ['"']) ++
              ',' :: ' ' :: ('"' :: w3.data ++ ['"']))) ++ [']'])) from
            pyStrip_cons_space (String.mk (('[' :: (('"' :: w1.data ++
              ['"']) ++ ',' :: ' ' :: ('"' :: w2.data ++ ['"']) ++
              ',' :: ' ' :: ('"' :: w3.data ++ ['"']))) ++ [']']))]
          exact pyStrip_of_ends '[' (('"' :: w1.data ++ ['"']) ++
            ',' :: ' ' :: ('"' :: w2.data ++ ['"']) ++
            ',' :: ' ' :: ('"' :: w3.data ++ ['"'])) ']'
            (by decide) (by decide))
        rfl
        (by rw [endsQ_concat]; rfl)
      rw [resolve_enum_dquote w1 w2 w3 h1 h2 h3] at hline
      exact hline

theorem claim_C3_amended_witness :
    parse_properties true [String.mk ("k".data ++ ':' :: ' ' ::
        (('[' :: ("fine".data ++ ',' :: ' ' :: "cloud".data ++
          ',' :: ' ' :: "rain".data)) ++ [']']))] 0 0 =
      ([("k", SchemaNode.strEnum
        [JVal.jStr "fine", JVal.jStr "cloud", JVal.jStr "rain"])], 1) ∧
    parse_properties true [String.mk ("k".data ++ ':' :: ' ' ::
        (('[' :: (('\'' :: "fine".data ++ ['\'']) ++
          ',' :: ' ' :: ('\'' :: "cloud".data ++ ['\'']) ++
          ',' :: ' ' :: ('\'' :: "rain".data ++ ['\'']))) ++ [']']))] 0 0 =
      ([("k", SchemaNode.strEnum
        [JVal.jStr "fine", JVal.jStr "cloud", JVal.jStr "rain"])], 1) ∧
    parse_properties true [String.mk ("k".data ++ ':' :: ' ' ::
        (('[' :: (('"' :: "fine".data ++ ['"']) ++
          ',' :: ' ' :: ('"' :: "cloud".data ++ ['"']) ++
          ',' :: ' ' :: ('"' :: "rain".data ++ ['"']))) ++ [']']))] 0 0 =
      ([("k", SchemaNode.strEnum
        [JVal.jStr "fine", JVal.jStr "cloud", JVal.jStr "rain"])], 1) :=
  claim_C3_amended.2 true "k" "fine" "cloud" "rain"
    (by decide) (by decide) (by decide) (by decide)
